import Mathlib

/-!
# Verification of the `maze` crate (generation and BFS solving of grid mazes)

Shallow embedding of `src/lib.rs`.  Machine integers (`usize`) are modelled as
`Nat` with explicit `% 2^64` where the source relies on wrapping arithmetic
(`safe_add`, cost increments).  Code that can panic (out-of-range indexing,
`gen_range` on an empty range) is modelled with `Option`: `none` is a run that
does not return normally (panic or divergence).  The process-wide random source
is modelled as an explicit oracle `R : Nat → Nat`; taking `R k % bound` for the
`k`-th draw ranges over every possible sequence of in-range random choices.
-/

set_option maxHeartbeats 1000000
set_option maxRecDepth 8000

namespace MazeModel

/-- `usize` modulus: arithmetic in the source wraps modulo `2^64`. -/
def W : Nat := 2 ^ 64

/-- `pub type Point = (usize, usize);` -/
abbrev Point := Nat × Nat

/-- `pub type Path = Vec<Point>;` -/
abbrev Path := List Point

/-- `fn safe_add(u: usize, i: i64) -> usize`: if `i` is negative this computes
`u - i.wrapping_abs() as usize` with wrapping `usize` subtraction, otherwise
`u + i as usize` with wrapping addition. -/
def safe_add (u : Nat) (i : Int) : Nat :=
  if i < 0 then (u + W - i.natAbs % W) % W else (u + i.natAbs) % W

/-- `Iterator for Neighbours`: the four candidate neighbours of a point, in the
fixed order north `(-1,0)`, east `(0,1)`, south `(1,0)`, west `(0,-1)`. -/
def neighbours (p : Point) : List Point :=
  [ (safe_add p.1 (-1), safe_add p.2 0),
    (safe_add p.1 0,    safe_add p.2 1),
    (safe_add p.1 1,    safe_add p.2 0),
    (safe_add p.1 0,    safe_add p.2 (-1)) ]

/-- `pub struct Matrix<T> { data: Vec<T>, n: usize, m: usize }` -/
structure Matrix (α : Type) where
  data : List α
  n : Nat
  m : Nat
deriving DecidableEq

/-- `Matrix::new(n, m)`: a grid of `n*m` default values. -/
def Matrix.new (α : Type) [Inhabited α] (n m : Nat) : Matrix α :=
  ⟨List.replicate (n * m) default, n, m⟩

/-- `Index<Point> for Matrix<T>`: panics (`none`) when the point is out of the
grid bounds or the linear index `i*m + j` falls outside the backing vector;
otherwise reads `data[i*m + j]`. -/
def Matrix.idx? (A : Matrix α) (p : Point) : Option α :=
  if p.1 < A.n ∧ p.2 < A.m then A.data[p.1 * A.m + p.2]? else none

/-- `IndexMut<Point> for Matrix<T>` used as a write: panics (`none`) when the
point is out of bounds, otherwise writes `data[i*m + j]`. -/
def Matrix.set? (A : Matrix α) (p : Point) (v : α) : Option (Matrix α) :=
  if p.1 < A.n ∧ p.2 < A.m then
    if p.1 * A.m + p.2 < A.data.length then
      some ⟨A.data.set (p.1 * A.m + p.2) v, A.n, A.m⟩
    else none
  else none

/-- `pub type Maze = Matrix<bool>;` (`true` = wall, `false` = open). -/
abbrev Maze := Matrix Bool

/-- `Maze::is_valid`: bounds check. -/
def Matrix.is_valid (mz : Maze) (p : Point) : Bool :=
  decide (p.1 < mz.n) && decide (p.2 < mz.m)

/-- `Maze::is_exit`: a cell on the outer boundary of the grid. -/
def Matrix.is_exit (mz : Maze) (p : Point) : Bool :=
  decide (p.1 = 0) || decide (p.1 = mz.n - 1) || decide (p.2 = 0) ||
    decide (p.2 = mz.m - 1)

/-! ## The solver (`Maze::solve`) -/

/-- The body of the BFS `for next in Neighbours::of(current)` loop: skips
out-of-bounds, walled and already-visited neighbours; records a found exit;
writes `costs[next] = costs[current] + 1` and enqueues `next`.  Cost increments
wrap like `usize` addition. -/
def processNbrs (mz : Maze) (current : Point) :
    List Point → Matrix Nat → Option Point → List Point →
      Option (Matrix Nat × Option Point × List Point)
  | [], costs, exitOpt, qtail => some (costs, exitOpt, qtail)
  | q :: rest, costs, exitOpt, qtail =>
    if mz.is_valid q then
      match mz.idx? q with
      | none => none
      | some true => processNbrs mz current rest costs exitOpt qtail
      | some false =>
        match costs.idx? q with
        | none => none
        | some cq =>
          if cq ≠ 0 then processNbrs mz current rest costs exitOpt qtail
          else
            let exitOpt' := if mz.is_exit q then some q else exitOpt
            match costs.idx? current with
            | none => none
            | some cc =>
              match costs.set? q ((cc + 1) % W) with
              | none => none
              | some costs' =>
                processNbrs mz current rest costs' exitOpt' (qtail ++ [q])
    else processNbrs mz current rest costs exitOpt qtail

/-- The BFS `while let Some(current) = queue.pop_front()` loop.  The fuel
argument only models divergence: `solve` passes `n*m + 1`, which is shown to be
sufficient for every well-formed run (each dequeue either consumes fuel
matched by a newly visited cell or shortens the queue). -/
def bfs (mz : Maze) : Nat → List Point → Matrix Nat → Option Point →
    Option (Matrix Nat × Option Point)
  | 0, _, _, _ => none
  | _ + 1, [], costs, exitOpt => some (costs, exitOpt)
  | fuel + 1, current :: queue, costs, exitOpt =>
    if exitOpt.isSome then some (costs, exitOpt)
    else
      match processNbrs mz current (neighbours current) costs exitOpt [] with
      | none => none
      | some (costs', exitOpt', newQ) => bfs mz fuel (queue ++ newQ) costs' exitOpt'

/-- The inner `for next in Neighbours::of(current)` loop of path restoration:
first neighbour that is in bounds with a nonzero cost strictly below
`costs[current]`.  `none` covers both a panicking read and the case where no
neighbour qualifies (in which case the source loops forever). -/
def findNext (mz : Maze) (costs : Matrix Nat) (cc : Nat) : List Point → Option Point
  | [] => none
  | q :: rest =>
    if mz.is_valid q then
      match costs.idx? q with
      | none => none
      | some cq =>
        if cq ≠ 0 ∧ cq < cc then some q else findNext mz costs cc rest
    else findNext mz costs cc rest

/-- The `while current != start` restoration loop, walking the cost field
downhill from the exit and accumulating the path.  The fuel (the cost of the
exit cell) only models divergence; it is shown sufficient because the cost
strictly decreases at every step. -/
def restore (mz : Maze) (costs : Matrix Nat) (start : Point) :
    Nat → Point → List Point → Option (List Point)
  | 0, current, acc => if current = start then some acc else none
  | fuel + 1, current, acc =>
    if current = start then some acc
    else
      match costs.idx? current with
      | none => none
      | some cc =>
        match findNext mz costs cc (neighbours current) with
        | none => none
        | some q => restore mz costs start fuel q (acc ++ [q])

/-- `Maze::solve`: `some none` is Rust's `None` (no path), `some (some path)`
is `Some(path)`, and `none` is a run that panics or diverges. -/
def Matrix.solve (mz : Maze) (start : Point) : Option (Option Path) :=
  match mz.idx? start with
  | none => none
  | some true => some none
  | some false =>
    match (Matrix.new Nat mz.n mz.m).set? start 1 with
    | none => none
    | some costs0 =>
      match bfs mz (mz.n * mz.m + 1) [start] costs0 none with
      | none => none
      | some (costs, exitOpt) =>
        match exitOpt with
        | none => some none
        | some e =>
          match costs.idx? e with
          | none => none
          | some fe =>
            match restore mz costs start fe e [e] with
            | none => none
            | some acc => some (some acc.reverse)

/-! ## The generator (`Maze::generate`) -/

/-- `Vec::swap_remove(i)`: overwrite position `i` with the last element, then
drop the last element. -/
def swapRemove (l : List α) (i : Nat) : List α :=
  match l.getLast? with
  | none => []
  | some last => (l.set i last).dropLast

/-- The `explored` counter: number of in-bounds open neighbours of a point. -/
def openNbrCount (mz : Maze) (p : Point) : Nat :=
  ((neighbours p).filter fun q => mz.is_valid q && (mz.idx? q == some false)).length

/-- The in-bounds, still-walled neighbours of a point, in enumeration order
(these are the cells pushed onto the frontier). -/
def walledNbrs (mz : Maze) (p : Point) : List Point :=
  (neighbours p).filter fun q => mz.is_valid q && (mz.idx? q == some true)

/-- State of the generation loop: the maze, the frontier (`cells`) and the
index of the next random draw. -/
structure GenState where
  mz : Maze
  cells : List Point
  k : Nat
deriving DecidableEq

/-- Result of one iteration of the frontier loop. -/
inductive GenRes where
  | done (mz : Maze)
  | panic
  | next (s : GenState)
deriving DecidableEq

/-- One iteration of `while let Some(current) = cells.remove_random(&mut rng)`:
remove a random frontier cell, count its explored (open) neighbours, and if
fewer than 2, carve it and push its in-bounds walled neighbours. -/
def stepGen (R : Nat → Nat) (s : GenState) : GenRes :=
  match s.cells[R s.k % s.cells.length]? with
  | none => .done s.mz
  | some current =>
    if openNbrCount s.mz current < 2 then
      match s.mz.set? current false with
      | .none => .panic
      | .some mz' =>
        .next ⟨mz', swapRemove s.cells (R s.k % s.cells.length) ++
          walledNbrs mz' current, s.k + 1⟩
    else .next ⟨s.mz, swapRemove s.cells (R s.k % s.cells.length), s.k + 1⟩

/-- Number of frontier entries whose cell currently reads open. -/
def openEntries (mz : Maze) (cells : List Point) : Nat :=
  (cells.filter fun q => mz.idx? q == some false).length

/-- Termination measure for the frontier loop: walled-cell count, then open
frontier entries, then frontier length (lexicographically). -/
def genMeasure (s : GenState) : Nat × Nat × Nat :=
  (s.mz.data.count true, openEntries s.mz s.cells, s.cells.length)

theorem set_eq_self_of_get (l : List α) (i : Nat) (a : α) (h : l[i]? = some a) :
    l.set i a = l := by
  induction l generalizing i with
  | nil => simp at h
  | cons b t ih =>
    cases i with
    | zero => simp_all
    | succ j => simp_all

theorem swapRemove_length (l : List α) (i : Nat) (hi : i < l.length) :
    (swapRemove l i).length = l.length - 1 := by
  have hne : l ≠ [] := by intro h; subst h; simp at hi
  obtain ⟨last, hlast⟩ : ∃ a, l.getLast? = some a := by
    cases h : l.getLast? with
    | none => exact absurd (List.getLast?_eq_none_iff.mp h) hne
    | some a => exact ⟨a, rfl⟩
  simp [swapRemove, hlast]

theorem countP_set (p : α → Bool) (l : List α) (i : Nat) (v : α) (hi : i < l.length) :
    (l.set i v).countP p + (if p (l.get ⟨i, hi⟩) then 1 else 0) =
      l.countP p + (if p v then 1 else 0) := by
  rw [List.set_eq_take_cons_drop v hi]
  conv_rhs => rw [← List.take_append_drop i l]
  have hdrop : l.drop i = l.get ⟨i, hi⟩ :: l.drop (i + 1) := by
    simpa using (List.getElem_cons_drop l i hi).symm
  rw [hdrop, List.countP_append, List.countP_append, List.countP_cons, List.countP_cons]
  by_cases hv : p v <;> by_cases hg : p (l.get ⟨i, hi⟩) <;> simp [hv, hg] <;> omega

theorem dropLast_countP_of_getLast? (p : α → Bool) (l : List α) (a : α)
    (h : l.getLast? = some a) :
    l.dropLast.countP p + (if p a then 1 else 0) = l.countP p := by
  conv_rhs => rw [← List.dropLast_append_getLast? a h]
  rw [List.countP_append, List.countP_cons, List.countP_nil]
  by_cases hp : p a <;> simp [hp]

theorem countP_swapRemove (p : α → Bool) (l : List α) (i : Nat) (hi : i < l.length) :
    (swapRemove l i).countP p + (if p (l.get ⟨i, hi⟩) then 1 else 0) = l.countP p := by
  have hne : l ≠ [] := by intro h; subst h; simp at hi
  obtain ⟨last, hlast⟩ : ∃ a, l.getLast? = some a := by
    cases h : l.getLast? with
    | none => exact absurd (List.getLast?_eq_none_iff.mp h) hne
    | some a => exact ⟨a, rfl⟩
  have hsw : swapRemove l i = (l.set i last).dropLast := by
    simp [swapRemove, hlast]
  rcases Nat.lt_or_ge i (l.length - 1) with hlt | hge
  · -- i is not the last position: the set list still ends in `last`
    have hlast2 : (l.set i last).getLast? = some last := by
      rw [List.getLast?_eq_getElem?, List.length_set,
        List.getElem?_set_ne (by omega), ← List.getLast?_eq_getElem?, hlast]
    have hdl := dropLast_countP_of_getLast? p (l.set i last) last hlast2
    have hset := countP_set p l i last hi
    rw [hsw]
    omega
  · -- i is the last position: setting it to `last` is the identity
    have hieq : i = l.length - 1 := by omega
    have hgl : l.get ⟨i, hi⟩ = last := by
      subst hieq
      rw [List.get_eq_getElem, ← List.getLast_eq_getElem]
      rw [List.getLast?_eq_getLast l hne, Option.some.injEq] at hlast
      exact hlast
    have hid : l.set i last = l := by
      apply set_eq_self_of_get
      rw [List.getElem?_eq_getElem hi]
      simp [← hgl, List.get_eq_getElem]
    rw [hsw, hid, hgl]
    exact dropLast_countP_of_getLast? p l last hlast

theorem countP_set' (p : α → Bool) (l : List α) (i : Nat) (v a : α)
    (h : l[i]? = some a) :
    (l.set i v).countP p + (if p a then 1 else 0) =
      l.countP p + (if p v then 1 else 0) := by
  obtain ⟨hi, hv⟩ := List.getElem?_eq_some.mp h
  have := countP_set p l i v hi
  rw [List.get_eq_getElem, hv] at this
  exact this

theorem countP_swapRemove' (p : α → Bool) (l : List α) (i : Nat) (a : α)
    (h : l[i]? = some a) :
    (swapRemove l i).countP p + (if p a then 1 else 0) = l.countP p := by
  obtain ⟨hi, hv⟩ := List.getElem?_eq_some.mp h
  have := countP_swapRemove p l i hi
  rw [List.get_eq_getElem, hv] at this
  exact this

theorem swapRemove_length' (l : List α) (i : Nat) (a : α) (h : l[i]? = some a) :
    (swapRemove l i).length + 1 = l.length := by
  obtain ⟨hi, _⟩ := List.getElem?_eq_some.mp h
  rw [swapRemove_length l i hi]
  omega

/-- Facts about a successful `Matrix.set?`: the point is in bounds, the index
is within the data vector, and the result is the pointwise update. -/
theorem set?_eq_some {A : Matrix α} {p : Point} {v : α} {A' : Matrix α}
    (h : A.set? p v = some A') :
    p.1 < A.n ∧ p.2 < A.m ∧ p.1 * A.m + p.2 < A.data.length ∧
      A' = ⟨A.data.set (p.1 * A.m + p.2) v, A.n, A.m⟩ := by
  rw [Matrix.set?] at h
  split at h
  next hb =>
    split at h
    next hpos =>
      rw [Option.some.injEq] at h
      exact ⟨hb.1, hb.2, hpos, h.symm⟩
    · exact absurd h (by simp)
  · exact absurd h (by simp)

theorem lex3_left {a1 a2 b1 b2 c1 c2 : Nat} (ha : a1 < a2) :
    Prod.Lex (· < ·) (Prod.Lex (· < ·) (· < ·)) (a1, b1, c1) (a2, b2, c2) :=
  Prod.Lex.left _ _ ha

theorem lex3_mid {a1 a2 b1 b2 c1 c2 : Nat} (ha : a1 = a2) (hb : b1 < b2) :
    Prod.Lex (· < ·) (Prod.Lex (· < ·) (· < ·)) (a1, b1, c1) (a2, b2, c2) := by
  subst ha
  exact Prod.Lex.right _ (Prod.Lex.left _ _ hb)

theorem lex3_right {a1 a2 b1 b2 c1 c2 : Nat} (ha : a1 = a2) (hb : b1 = b2)
    (hc : c1 < c2) :
    Prod.Lex (· < ·) (Prod.Lex (· < ·) (· < ·)) (a1, b1, c1) (a2, b2, c2) := by
  subst ha
  subst hb
  exact Prod.Lex.right _ (Prod.Lex.right _ hc)

/-- One iteration strictly decreases the lexicographic generation measure:
walled-cell count, else open frontier entries, else frontier length. -/
theorem stepGen_measure (R : Nat → Nat) (s s' : GenState)
    (h : stepGen R s = .next s') :
    Prod.Lex (· < ·) (Prod.Lex (· < ·) (· < ·)) (genMeasure s') (genMeasure s) := by
  unfold stepGen at h
  split at h
  · exact absurd h (by simp)
  next current hcur =>
    split at h
    next hexp =>
      -- carve branch
      split at h
      · exact absurd h (by simp)
      next mz' hset =>
        rw [GenRes.next.injEq] at h
        subst h
        obtain ⟨hc1, hc2, hpos, hmz'⟩ := set?_eq_some hset
        by_cases hval : s.mz.data[current.1 * s.mz.m + current.2] = true
        · -- a wall is carved: the walled-cell count strictly decreases
          simp only [genMeasure]
          apply lex3_left
          have hcs := countP_set (fun x => x == true) s.mz.data
            (current.1 * s.mz.m + current.2) false hpos
          rw [List.get_eq_getElem, hval] at hcs
          simp only [beq_self_eq_true, if_true] at hcs
          have hff : ((false : Bool) == true) = false := rfl
          rw [hff] at hcs
          simp only [Bool.false_eq_true, if_false] at hcs
          simp only [hmz', List.count]
          omega
        · -- duplicate pop of an open cell: maze unchanged, open entries drop
          have hvf : s.mz.data[current.1 * s.mz.m + current.2] = false := by
            cases hb : s.mz.data[current.1 * s.mz.m + current.2]
            · rfl
            · exact absurd hb hval
          have hdata : s.mz.data.set (current.1 * s.mz.m + current.2) false =
              s.mz.data := by
            apply set_eq_self_of_get
            rw [List.getElem?_eq_getElem hpos, hvf]
          have hmzeq : mz' = s.mz := by
            rw [hmz', hdata]
          subst hmzeq
          have hopen : s.mz.idx? current = some false := by
            rw [Matrix.idx?, if_pos ⟨hc1, hc2⟩, List.getElem?_eq_getElem hpos, hvf]
          have hcnt := countP_swapRemove' (fun q => s.mz.idx? q == some false)
            s.cells (R s.k % s.cells.length) current hcur
          simp only [hopen, beq_self_eq_true, if_true] at hcnt
          simp only [genMeasure]
          apply lex3_mid rfl
          simp only [openEntries, List.countP_eq_length_filter] at hcnt ⊢
          rw [List.filter_append, List.length_append]
          have hwz : (List.filter (fun q => s.mz.idx? q == some false)
              (walledNbrs s.mz current)).length = 0 := by
            rw [List.length_eq_zero, List.filter_eq_nil_iff]
            intro q hq
            rw [walledNbrs, List.mem_filter] at hq
            have h2 := hq.2
            simp only [Bool.and_eq_true, beq_iff_eq] at h2
            simp [h2.2]
          omega
    next hexp =>
      -- skip branch: frontier shrinks by the popped element
      rw [GenRes.next.injEq] at h
      subst h
      have hcnt := countP_swapRemove' (fun q => s.mz.idx? q == some false)
        s.cells (R s.k % s.cells.length) current hcur
      by_cases hc : s.mz.idx? current = some false
      · simp only [hc, beq_self_eq_true, if_true] at hcnt
        simp only [genMeasure]
        apply lex3_mid rfl
        simp only [openEntries, List.countP_eq_length_filter] at hcnt ⊢
        exact Nat.lt_of_lt_of_le (Nat.lt_succ_self _) (Nat.le_of_eq hcnt)
      · have hcf : (s.mz.idx? current == some false) = false := by
          simpa using hc
        simp only [hcf, Bool.false_eq_true, if_false, Nat.add_zero] at hcnt
        simp only [genMeasure]
        apply lex3_right rfl
        · simp only [openEntries, List.countP_eq_length_filter] at hcnt ⊢
          exact hcnt
        · have := swapRemove_length' s.cells (R s.k % s.cells.length) current hcur
          omega

/-- The `while let Some(current) = cells.remove_random(&mut rng)` loop. -/
def genLoop (R : Nat → Nat) (s : GenState) : Option Maze :=
  match h : stepGen R s with
  | .done mz => some mz
  | .panic => none
  | .next s' => genLoop R s'
termination_by genMeasure s
decreasing_by exact stepGen_measure R s s' h

/-- The setup of `Maze::generate`: build the fully walled maze, choose and
carve the boundary exit cell `start`, and seed the frontier with the in-bounds
walled neighbours of `start`.  Dimension 0 makes `gen_range` panic (`none`). -/
def genInit (n m : Nat) (R : Nat → Nat) : Option (Point × GenState) :=
  if n = 0 ∨ m = 0 then none
  else
    let mz0 : Maze := ⟨List.replicate (n * m) true, n, m⟩
    let x := R 0 % n
    let y := R 1 % m
    if R 2 % 2 = 0 then
      match mz0.set? (x, 0) false with
      | none => none
      | some mz1 => some ((x, 0), ⟨mz1, walledNbrs mz1 (x, 0), 3⟩)
    else
      match mz0.set? (0, y) false with
      | none => none
      | some mz1 => some ((0, y), ⟨mz1, walledNbrs mz1 (0, y), 3⟩)

/-- `Maze::generate`, with the random source as an explicit oracle. -/
def generate (n m : Nat) (R : Nat → Nat) : Option Maze :=
  match genInit n m R with
  | none => none
  | some (_, s) => genLoop R s

/-! ## Concrete mazes from `src/tests.rs` -/

/-- The 5×5 maze of `test_simple_maze` (`1` = wall, `0` = open). -/
def test5 : Maze :=
  ⟨([1,0,1,1,1,
     1,0,0,1,1,
     1,1,0,0,1,
     1,0,0,1,1,
     1,1,1,1,1] : List Nat).map (· != 0), 5, 5⟩

/-- The 8×6 maze of `test_blocked_maze` (`1` = wall, `0` = open). -/
def test86 : Maze :=
  ⟨([1,1,1,1,1,1,
     1,0,0,1,0,1,
     1,0,1,1,0,1,
     1,0,0,1,0,1,
     1,1,1,1,0,1,
     1,0,0,1,0,1,
     1,1,0,0,0,1,
     1,1,1,1,1,1] : List Nat).map (· != 0), 8, 6⟩

/-! ## Basic facts about `safe_add` and `neighbours` -/

theorem W_pos : 0 < W := by decide

theorem safe_add_zero (u : Nat) (h : u < W) : safe_add u 0 = u := by
  simp [safe_add, Nat.mod_eq_of_lt h]

theorem safe_add_one (u : Nat) : safe_add u 1 = (u + 1) % W := by
  simp [safe_add]

theorem safe_add_neg_one (u : Nat) : safe_add u (-1) = (u + W - 1) % W := by
  have h1 : ((-1 : Int) < 0) = True := by simp
  have h2 : (Int.natAbs (-1)) = 1 := rfl
  simp only [safe_add, h1, if_true, h2]
  have h3 : 1 % W = 1 := Nat.mod_eq_of_lt (by decide)
  rw [h3]

theorem safe_add_neg_one_zero : safe_add 0 (-1) = W - 1 := by
  rw [safe_add_neg_one]
  have h : (0 + W - 1) = W - 1 := by omega
  rw [h, Nat.mod_eq_of_lt (by have := W_pos; omega)]

theorem safe_add_neg_one_pos (u : Nat) (h0 : 0 < u) (hW : u < W) :
    safe_add u (-1) = u - 1 := by
  rw [safe_add_neg_one]
  have : u + W - 1 = W + (u - 1) := by omega
  rw [this, Nat.add_mod_left, Nat.mod_eq_of_lt (by omega)]

theorem safe_add_one_small (u : Nat) (h : u + 1 < W) : safe_add u 1 = u + 1 := by
  rw [safe_add_one, Nat.mod_eq_of_lt h]

/-! ## Vocabulary for the specification-level statements -/

/-- Well-formedness of a maze as produced by the Rust code: the backing vector
has exactly `n*m` elements, and the dimensions fit `usize` (a `Vec` of `n*m`
elements bounds `n*m` by `isize::MAX`, hence strictly below `2^64 - 1`). -/
def Wf (A : Matrix α) : Prop :=
  A.data.length = A.n * A.m ∧ A.n < W ∧ A.m < W ∧ A.n * A.m < W - 1

/-- The point is inside the grid. -/
def validPt (A : Matrix α) (p : Point) : Prop := p.1 < A.n ∧ p.2 < A.m

instance validPtDec (A : Matrix α) (p : Point) : Decidable (validPt A p) :=
  inferInstanceAs (Decidable (p.1 < A.n ∧ p.2 < A.m))

/-- The cell reads open (`false`). -/
def openCell (mz : Maze) (p : Point) : Prop := mz.idx? p = some false

/-- Von Neumann adjacency of two grid points. -/
def vonAdj (p q : Point) : Prop :=
  (p.1 = q.1 ∧ (p.2 + 1 = q.2 ∨ q.2 + 1 = p.2)) ∨
  (p.2 = q.2 ∧ (p.1 + 1 = q.1 ∨ q.1 + 1 = p.1))

theorem vonAdj_symm {p q : Point} (h : vonAdj p q) : vonAdj q p := by
  rcases h with ⟨h1, h2⟩ | ⟨h1, h2⟩
  · exact Or.inl ⟨h1.symm, h2.symm⟩
  · exact Or.inr ⟨h1.symm, h2.symm⟩

theorem vonAdj_ne {p q : Point} (h : vonAdj p q) : p ≠ q := by
  rcases h with ⟨h1, h2⟩ | ⟨h1, h2⟩ <;>
    (intro he; rw [he] at h2; omega)

/-! ## Reading and writing matrices -/

theorem linIdx_lt {n m i j : Nat} (hi : i < n) (hj : j < m) : i * m + j < n * m := by
  calc i * m + j < i * m + m := by omega
  _ = (i + 1) * m := by ring
  _ ≤ n * m := Nat.mul_le_mul_right m (by omega)

theorem linIdx_inj {m i1 j1 i2 j2 : Nat} (hj1 : j1 < m) (hj2 : j2 < m)
    (h : i1 * m + j1 = i2 * m + j2) : i1 = i2 ∧ j1 = j2 := by
  have hii : i1 = i2 := by
    rcases Nat.lt_trichotomy i1 i2 with hlt | heq | hgt
    · exfalso
      have : i1 * m + j1 < i2 * m + j2 := by
        calc i1 * m + j1 < (i1 + 1) * m := by rw [Nat.add_mul]; omega
        _ ≤ i2 * m := Nat.mul_le_mul_right m (by omega)
        _ ≤ i2 * m + j2 := by omega
      omega
    · exact heq
    · exfalso
      have : i2 * m + j2 < i1 * m + j1 := by
        calc i2 * m + j2 < (i2 + 1) * m := by rw [Nat.add_mul]; omega
        _ ≤ i1 * m := Nat.mul_le_mul_right m (by omega)
        _ ≤ i1 * m + j1 := by omega
      omega
  subst hii
  exact ⟨rfl, by omega⟩

theorem idx?_eq_some_of_valid {A : Matrix α} (hlen : A.data.length = A.n * A.m)
    {p : Point} (hv : validPt A p) :
    ∃ v, A.idx? p = some v ∧ A.data[p.1 * A.m + p.2]? = some v := by
  rw [Matrix.idx?, if_pos ⟨hv.1, hv.2⟩]
  have hlt : p.1 * A.m + p.2 < A.data.length := by
    rw [hlen]; exact linIdx_lt hv.1 hv.2
  rw [List.getElem?_eq_getElem hlt]
  exact ⟨_, rfl, rfl⟩

theorem idx?_valid {A : Matrix α} {p : Point} {v : α} (h : A.idx? p = some v) :
    validPt A p := by
  rw [Matrix.idx?] at h
  split at h
  next hb => exact hb
  · exact absurd h (by simp)

theorem set?_eq_some_of_valid {A : Matrix α} (hlen : A.data.length = A.n * A.m)
    {p : Point} (hv : validPt A p) (v : α) :
    A.set? p v = some ⟨A.data.set (p.1 * A.m + p.2) v, A.n, A.m⟩ := by
  rw [Matrix.set?, if_pos ⟨hv.1, hv.2⟩, if_pos]
  rw [hlen]
  exact linIdx_lt hv.1 hv.2

theorem set?_dims {A A' : Matrix α} {p : Point} {v : α} (h : A.set? p v = some A') :
    A'.n = A.n ∧ A'.m = A.m ∧ A'.data.length = A.data.length := by
  obtain ⟨_, _, _, h4⟩ := set?_eq_some h
  rw [h4]
  simp

/-- Pointwise description of a successful write. -/
theorem idx?_after_set? {A A' : Matrix α} {p : Point} {v : α}
    (h : A.set? p v = some A') (q : Point) :
    A'.idx? q = if q = p then some v else A.idx? q := by
  obtain ⟨hp1, hp2, hpos, h4⟩ := set?_eq_some h
  subst h4
  by_cases hq : q.1 < A.n ∧ q.2 < A.m
  · rw [Matrix.idx?]
    simp only []
    rw [if_pos hq]
    by_cases hqp : q = p
    · subst hqp
      rw [List.getElem?_set_self' ]
      rw [List.getElem?_eq_getElem hpos]
      simp
    · have hne : p.1 * A.m + p.2 ≠ q.1 * A.m + q.2 := by
        intro he
        exact hqp (Prod.ext (linIdx_inj hp2 hq.2 he).1.symm
          (linIdx_inj hp2 hq.2 he).2.symm)
      rw [List.getElem?_set_ne hne, if_neg hqp]
      rw [Matrix.idx?, if_pos hq]
  · have hqp : q ≠ p := by
      intro he
      exact hq (he ▸ ⟨hp1, hp2⟩)
    rw [if_neg hqp, Matrix.idx?, Matrix.idx?]
    simp only []
    rw [if_neg hq, if_neg hq]

/-- Count of visited (nonzero) cost cells. -/
def nzc (costs : Matrix Nat) : Nat := costs.data.countP (fun x => x != 0)

/-- Cost value at a point (`0` when out of bounds, as unvisited). -/
def cval (costs : Matrix Nat) (p : Point) : Nat := (costs.idx? p).getD 0

theorem nzc_after_set? {costs costs' : Matrix Nat} {p : Point} {v : Nat}
    (h : costs.set? p v = some costs') (h0 : costs.idx? p = some 0) (hv : v ≠ 0) :
    nzc costs' = nzc costs + 1 := by
  obtain ⟨hp1, hp2, hpos, h4⟩ := set?_eq_some h
  subst h4
  have hg : costs.data[p.1 * costs.m + p.2] = 0 := by
    rw [Matrix.idx?, if_pos ⟨hp1, hp2⟩, List.getElem?_eq_getElem hpos] at h0
    exact Option.some.injEq _ _ ▸ (by simpa using h0)
  have := countP_set (fun x => x != 0) costs.data (p.1 * costs.m + p.2) v hpos
  rw [List.get_eq_getElem, hg] at this
  simp only [bne_self_eq_false, Bool.false_eq_true, if_false] at this
  have hvb : (v != 0) = true := by simpa using hv
  rw [hvb] at this
  simp only [if_true] at this
  simpa [nzc] using this

theorem cval_eq_of_idx? {costs : Matrix Nat} {p : Point} {k : Nat}
    (h : costs.idx? p = some k) : cval costs p = k := by
  rw [cval, h]
  rfl

theorem costed_valid {costs : Matrix Nat} {p : Point} (h : cval costs p ≠ 0) :
    ∃ k, costs.idx? p = some k ∧ k ≠ 0 := by
  rw [cval] at h
  cases hc : costs.idx? p with
  | none => rw [hc] at h; simp at h
  | some k =>
    rw [hc] at h
    exact ⟨k, rfl, by simpa using h⟩

/-! ## Neighbour membership versus grid adjacency -/

theorem wrap_sub_ne (u : Nat) (h : u < W) : (u + W - 1) % W ≠ u := by
  rcases Nat.eq_zero_or_pos u with h0 | h0
  · subst h0
    have : (0 + W - 1) % W = W - 1 := by
      have he : 0 + W - 1 = W - 1 := by omega
      rw [he, Nat.mod_eq_of_lt (by have := W_pos; omega)]
    rw [this]
    have : (2 : Nat) ≤ W := by decide
    omega
  · have : (u + W - 1) % W = u - 1 := by
      have he : u + W - 1 = W + (u - 1) := by omega
      rw [he, Nat.add_mod_left, Nat.mod_eq_of_lt (by omega)]
    omega

theorem wrap_add_ne (u : Nat) (h : u < W) : (u + 1) % W ≠ u := by
  rcases Nat.lt_or_ge (u + 1) W with hlt | hge
  · rw [Nat.mod_eq_of_lt hlt]; omega
  · have hu : u = W - 1 := by omega
    have : (u + 1) % W = 0 := by
      have he : u + 1 = W := by omega
      rw [he, Nat.mod_self]
    rw [this]
    have : (2 : Nat) ≤ W := by decide
    omega

theorem wrap_sub_ne_add (u : Nat) (h : u < W) : (u + W - 1) % W ≠ (u + 1) % W := by
  have h2 : (3 : Nat) ≤ W := by decide
  rcases Nat.eq_zero_or_pos u with h0 | h0
  · subst h0
    have ha : (0 + W - 1) % W = W - 1 := by
      have he : 0 + W - 1 = W - 1 := by omega
      rw [he, Nat.mod_eq_of_lt (by omega)]
    have hb : (0 + 1) % W = 1 := by
      rw [Nat.mod_eq_of_lt (by omega)]
    rw [ha, hb]
    omega
  · have ha : (u + W - 1) % W = u - 1 := by
      have he : u + W - 1 = W + (u - 1) := by omega
      rw [he, Nat.add_mod_left, Nat.mod_eq_of_lt (by omega)]
    rcases Nat.lt_or_ge (u + 1) W with hlt | hge
    · rw [ha, Nat.mod_eq_of_lt hlt]; omega
    · have : (u + 1) % W = 0 := by
        have he : u + 1 = W := by omega
        rw [he, Nat.mod_self]
      rw [ha, this]
      omega

theorem point_eq (q : Point) (a b : Nat) (h1 : q.1 = a) (h2 : q.2 = b) :
    q = (a, b) := by
  rw [← h1, ← h2]

theorem neighbours_expand (p : Point) (h1 : p.1 < W) (h2 : p.2 < W) :
    neighbours p = [((p.1 + W - 1) % W, p.2), (p.1, (p.2 + 1) % W),
      ((p.1 + 1) % W, p.2), (p.1, (p.2 + W - 1) % W)] := by
  rw [neighbours, safe_add_zero p.1 h1, safe_add_zero p.2 h2, safe_add_one,
    safe_add_one, safe_add_neg_one, safe_add_neg_one]

theorem self_not_mem_neighbours (p : Point) (h1 : p.1 < W) (h2 : p.2 < W) :
    p ∉ neighbours p := by
  intro hmem
  rw [neighbours_expand p h1 h2] at hmem
  simp only [List.mem_cons, List.not_mem_nil, or_false] at hmem
  rcases hmem with h | h | h | h
  · exact wrap_sub_ne p.1 h1 (congrArg Prod.fst h).symm
  · exact wrap_add_ne p.2 h2 (congrArg Prod.snd h).symm
  · exact wrap_add_ne p.1 h1 (congrArg Prod.fst h).symm
  · exact wrap_sub_ne p.2 h2 (congrArg Prod.snd h).symm

theorem neighbours_nodup (p : Point) (h1 : p.1 < W) (h2 : p.2 < W) :
    (neighbours p).Nodup := by
  rw [neighbours_expand p h1 h2]
  refine List.Pairwise.cons ?_ (List.Pairwise.cons ?_ (List.Pairwise.cons ?_
    (List.pairwise_singleton _ _)))
  · intro b hb
    simp only [List.mem_cons, List.not_mem_nil, or_false] at hb
    rcases hb with rfl | rfl | rfl
    · intro he
      rw [Prod.mk.injEq] at he
      exact wrap_sub_ne p.1 h1 he.1
    · intro he
      rw [Prod.mk.injEq] at he
      exact wrap_sub_ne_add p.1 h1 he.1
    · intro he
      rw [Prod.mk.injEq] at he
      exact wrap_sub_ne p.1 h1 he.1
  · intro b hb
    simp only [List.mem_cons, List.not_mem_nil, or_false] at hb
    rcases hb with rfl | rfl
    · intro he
      rw [Prod.mk.injEq] at he
      exact wrap_add_ne p.1 h1 he.1.symm
    · intro he
      rw [Prod.mk.injEq] at he
      exact wrap_sub_ne_add p.2 h2 he.2.symm
  · intro b hb
    simp only [List.mem_cons, List.not_mem_nil, or_false] at hb
    rcases hb with rfl
    intro he
    rw [Prod.mk.injEq] at he
    exact wrap_add_ne p.1 h1 he.1

/-- A neighbour of a valid point that is itself valid is von-Neumann adjacent
(wrapped coordinates always land outside any `usize`-sized grid). -/
theorem vonAdj_of_mem_neighbours {mz : Maze} {p q : Point}
    (hn : mz.n < W) (hm : mz.m < W)
    (hp : validPt mz p) (hq : validPt mz q) (hmem : q ∈ neighbours p) :
    vonAdj p q := by
  obtain ⟨hp1, hp2⟩ := hp
  obtain ⟨hq1, hq2⟩ := hq
  have hp1W : p.1 < W := by omega
  have hp2W : p.2 < W := by omega
  rw [neighbours_expand p hp1W hp2W] at hmem
  simp only [List.mem_cons, List.not_mem_nil, or_false] at hmem
  rcases hmem with h | h | h | h
  · -- north
    have hq1' : (p.1 + W - 1) % W < mz.n := by
      rw [h] at hq1
      exact hq1
    rcases Nat.eq_zero_or_pos p.1 with h0 | h0
    · exfalso
      have hv : (p.1 + W - 1) % W = W - 1 := by
        rw [h0]
        have he : 0 + W - 1 = W - 1 := by omega
        rw [he, Nat.mod_eq_of_lt (by have := W_pos; omega)]
      rw [hv] at hq1'
      omega
    · have hsub : (p.1 + W - 1) % W = p.1 - 1 := by
        have he : p.1 + W - 1 = W + (p.1 - 1) := by omega
        rw [he, Nat.add_mod_left, Nat.mod_eq_of_lt (by omega)]
      refine Or.inr ⟨by rw [h], Or.inr ?_⟩
      rw [h]
      show (p.1 + W - 1) % W + 1 = p.1
      rw [hsub]
      omega
  · -- east
    rcases Nat.lt_or_ge (p.2 + 1) W with hlt | hge
    · refine Or.inl ⟨by rw [h], Or.inl ?_⟩
      rw [h]
      show p.2 + 1 = (p.2 + 1) % W
      rw [Nat.mod_eq_of_lt hlt]
    · exfalso
      omega
  · -- south
    rcases Nat.lt_or_ge (p.1 + 1) W with hlt | hge
    · refine Or.inr ⟨by rw [h], Or.inl ?_⟩
      rw [h]
      show p.1 + 1 = (p.1 + 1) % W
      rw [Nat.mod_eq_of_lt hlt]
    · exfalso
      omega
  · -- west
    have hq2' : (p.2 + W - 1) % W < mz.m := by
      rw [h] at hq2
      exact hq2
    rcases Nat.eq_zero_or_pos p.2 with h0 | h0
    · exfalso
      have hv : (p.2 + W - 1) % W = W - 1 := by
        rw [h0]
        have he : 0 + W - 1 = W - 1 := by omega
        rw [he, Nat.mod_eq_of_lt (by have := W_pos; omega)]
      rw [hv] at hq2'
      omega
    · have hsub : (p.2 + W - 1) % W = p.2 - 1 := by
        have he : p.2 + W - 1 = W + (p.2 - 1) := by omega
        rw [he, Nat.add_mod_left, Nat.mod_eq_of_lt (by omega)]
      refine Or.inl ⟨by rw [h], Or.inr ?_⟩
      rw [h]
      show (p.2 + W - 1) % W + 1 = p.2
      rw [hsub]
      omega

theorem mem_neighbours_of_vonAdj {p q : Point}
    (hp1 : p.1 < W) (hp2 : p.2 < W) (hq1 : q.1 < W) (hq2 : q.2 < W)
    (h : vonAdj p q) : q ∈ neighbours p := by
  rw [neighbours_expand p hp1 hp2]
  simp only [List.mem_cons, List.not_mem_nil, or_false]
  rcases h with ⟨h1, h2 | h2⟩ | ⟨h1, h2 | h2⟩
  · -- east
    refine Or.inr (Or.inl (point_eq q p.1 ((p.2 + 1) % W) h1.symm ?_))
    rw [Nat.mod_eq_of_lt (by omega)]
    omega
  · -- west
    refine Or.inr (Or.inr (Or.inr (point_eq q p.1 ((p.2 + W - 1) % W)
      h1.symm ?_)))
    have hsub : (p.2 + W - 1) % W = p.2 - 1 := by
      have he : p.2 + W - 1 = W + (p.2 - 1) := by omega
      rw [he, Nat.add_mod_left, Nat.mod_eq_of_lt (by omega)]
    rw [hsub]
    omega
  · -- south
    refine Or.inr (Or.inr (Or.inl (point_eq q ((p.1 + 1) % W) p.2 ?_ h1.symm)))
    rw [Nat.mod_eq_of_lt (by omega)]
    omega
  · -- north
    refine Or.inl (point_eq q ((p.1 + W - 1) % W) p.2 ?_ h1.symm)
    have hsub : (p.1 + W - 1) % W = p.1 - 1 := by
      have he : p.1 + W - 1 = W + (p.1 - 1) := by omega
      rw [he, Nat.add_mod_left, Nat.mod_eq_of_lt (by omega)]
    rw [hsub]
    omega

theorem mem_neighbours_symm {mz : Maze} {p q : Point}
    (hn : mz.n < W) (hm : mz.m < W)
    (hp : validPt mz p) (hq : validPt mz q) (hmem : q ∈ neighbours p) :
    p ∈ neighbours q :=
  mem_neighbours_of_vonAdj (by obtain ⟨a, b⟩ := hq; omega)
    (by obtain ⟨a, b⟩ := hq; omega) (by obtain ⟨a, b⟩ := hp; omega)
    (by obtain ⟨a, b⟩ := hp; omega)
    (vonAdj_symm (vonAdj_of_mem_neighbours hn hm hp hq hmem))

/-! ## One pass of the BFS neighbour loop -/

theorem is_valid_iff {mz : Maze} {p : Point} :
    mz.is_valid p = true ↔ validPt mz p := by
  simp [Matrix.is_valid, validPt]

theorem idx?_none_of_invalid {A : Matrix α} {p : Point} (h : ¬ validPt A p) :
    A.idx? p = none := by
  rw [Matrix.idx?, if_neg]
  exact fun hc => h ⟨hc.1, hc.2⟩

/-- Complete characterisation of one `for next in Neighbours::of(current)`
pass of the BFS loop. -/
theorem processNbrs_spec (mz : Maze) (current : Point) (cc : Nat)
    (l : List Point) (costs : Matrix Nat) (exitOpt : Option Point)
    (qtail : List Point)
    (hwf : mz.data.length = mz.n * mz.m)
    (hdn : costs.n = mz.n) (hdm : costs.m = mz.m)
    (hdl : costs.data.length = mz.n * mz.m)
    (hcc : costs.idx? current = some cc)
    (hlt : cc + 1 < W)
    (hnd : l.Nodup) (hcur : current ∉ l) :
    ∃ costs' exitOpt' news,
      processNbrs mz current l costs exitOpt qtail =
        some (costs', exitOpt', qtail ++ news) ∧
      news = l.filter (fun q => (mz.idx? q == some false) &&
        (costs.idx? q == some 0)) ∧
      costs'.n = costs.n ∧ costs'.m = costs.m ∧
      costs'.data.length = costs.data.length ∧
      (∀ q, q ∈ news → costs'.idx? q = some (cc + 1)) ∧
      (∀ q, q ∉ news → costs'.idx? q = costs.idx? q) ∧
      nzc costs' = nzc costs + news.length ∧
      (((∀ q ∈ news, mz.is_exit q = false) ∧ exitOpt' = exitOpt) ∨
        (∃ e, exitOpt' = some e ∧ e ∈ news ∧ mz.is_exit e = true)) := by
  induction l generalizing costs exitOpt qtail with
  | nil =>
    refine ⟨costs, exitOpt, [], ?_, rfl, rfl, rfl, rfl, ?_, ?_, ?_, ?_⟩
    · rw [processNbrs, List.append_nil]
    · intro q hq; exact absurd hq (List.not_mem_nil q)
    · intro q hq; rfl
    · simp
    · exact Or.inl ⟨fun q hq => absurd hq (List.not_mem_nil q), rfl⟩
  | cons q rest ih =>
    have hndr : rest.Nodup := (List.nodup_cons.mp hnd).2
    have hqrest : q ∉ rest := (List.nodup_cons.mp hnd).1
    have hcurr : current ∉ rest := fun hc => hcur (List.mem_cons_of_mem q hc)
    have hcurq : current ≠ q := fun hc => hcur (hc ▸ List.mem_cons_self q rest)
    by_cases hv : mz.is_valid q = true
    · have hvp : validPt mz q := is_valid_iff.mp hv
      obtain ⟨b, hbq, _⟩ := idx?_eq_some_of_valid hwf hvp
      have hvpc : validPt costs q := by
        rw [validPt, hdn, hdm]; exact hvp
      have hdl' : costs.data.length = costs.n * costs.m := by
        rw [hdn, hdm]; exact hdl
      obtain ⟨cq, hcq, _⟩ := idx?_eq_some_of_valid hdl' hvpc
      cases b with
      | true =>
        -- walled neighbour: skipped
        obtain ⟨costs', exitOpt', news, h1, h2, h3, h4, h5, h6, h7, h8, h9⟩ :=
          ih costs exitOpt qtail hdn hdm hdl hcc hndr hcurr
        refine ⟨costs', exitOpt', news, ?_, ?_, h3, h4, h5, h6, h7, h8, h9⟩
        · rw [processNbrs, if_pos hv, hbq]
          exact h1
        · rw [List.filter_cons_of_neg, h2]
          rw [hbq]
          simp
      | false =>
        by_cases hz : cq = 0
        · -- open unvisited neighbour: visited, costed, enqueued
          subst hz
          have hset := set?_eq_some_of_valid hdl' hvpc ((cc + 1) % W)
          set costs2 : Matrix Nat :=
            ⟨costs.data.set (q.1 * costs.m + q.2) ((cc + 1) % W),
              costs.n, costs.m⟩ with hc2
          have hmod : (cc + 1) % W = cc + 1 := Nat.mod_eq_of_lt hlt
          have hd2 := set?_dims hset
          have hcc2 : costs2.idx? current = some cc := by
            rw [idx?_after_set? hset current, if_neg hcurq]
            exact hcc
          obtain ⟨costs', exitOpt', news, h1, h2, h3, h4, h5, h6, h7, h8, h9⟩ :=
            ih costs2 (if mz.is_exit q then some q else exitOpt) (qtail ++ [q])
              (hd2.1.trans hdn) (hd2.2.1.trans hdm) (hd2.2.2.trans hdl) hcc2
              hndr hcurr
          have hpt2 : ∀ r, costs2.idx? r =
              if r = q then some (cc + 1) else costs.idx? r := by
            intro r
            rw [idx?_after_set? hset r, hmod]
          have hfeq : news = rest.filter (fun r => (mz.idx? r == some false) &&
              (costs.idx? r == some 0)) := by
            rw [h2]
            apply List.filter_congr
            intro r hr
            have hrq : r ≠ q := fun hc => hqrest (hc ▸ hr)
            rw [hpt2 r, if_neg hrq]
          have hqnotnews : q ∉ news := by
            rw [hfeq]
            intro hc
            exact hqrest (List.mem_filter.mp hc).1
          refine ⟨costs', exitOpt', q :: news, ?_, ?_, h3.trans hd2.1,
            h4.trans hd2.2.1, h5.trans hd2.2.2, ?_, ?_, ?_, ?_⟩
          · rw [processNbrs, if_pos hv, hbq, hcq]
            simp only [if_pos rfl, Ne, not_true_eq_false, if_false, hcc, hset]
            rw [h1, List.append_assoc]
            rfl
          · rw [List.filter_cons_of_pos, hfeq]
            rw [hbq, hcq]
            simp
          · intro r hr
            rcases List.mem_cons.mp hr with rfl | hr2
            · rw [h7 r hqnotnews, hpt2 r, if_pos rfl]
            · exact h6 r hr2
          · intro r hr
            have hrq : r ≠ q := fun hc => hr (hc ▸ List.mem_cons_self q news)
            have hrn : r ∉ news := fun hc => hr (List.mem_cons_of_mem q hc)
            rw [h7 r hrn, hpt2 r, if_neg hrq]
          · have hn2 : nzc costs2 = nzc costs + 1 := by
              apply nzc_after_set? hset hcq
              rw [hmod]
              omega
            rw [h8, hn2, List.length_cons]
            omega
          · rcases h9 with ⟨hnoex, hsame⟩ | ⟨e, he1, he2, he3⟩
            · by_cases hex : mz.is_exit q = true
              · right
                refine ⟨q, ?_, List.mem_cons_self q news, hex⟩
                rw [hsame, if_pos hex]
              · left
                refine ⟨?_, ?_⟩
                · intro r hr
                  rcases List.mem_cons.mp hr with rfl | hr2
                  · simpa using hex
                  · exact hnoex r hr2
                · rw [hsame, if_neg hex]
            · exact Or.inr ⟨e, he1, List.mem_cons_of_mem q he2, he3⟩
        · -- already visited neighbour: skipped
          obtain ⟨costs', exitOpt', news, h1, h2, h3, h4, h5, h6, h7, h8, h9⟩ :=
            ih costs exitOpt qtail hdn hdm hdl hcc hndr hcurr
          refine ⟨costs', exitOpt', news, ?_, ?_, h3, h4, h5, h6, h7, h8, h9⟩
          · simp only [processNbrs, hv, if_true, hbq, hcq]
            rw [if_pos hz]
            exact h1
          · rw [List.filter_cons_of_neg, h2]
            rw [hbq, hcq]
            simp [hz]
    · -- out-of-bounds neighbour: skipped
      obtain ⟨costs', exitOpt', news, h1, h2, h3, h4, h5, h6, h7, h8, h9⟩ :=
        ih costs exitOpt qtail hdn hdm hdl hcc hndr hcurr
      refine ⟨costs', exitOpt', news, ?_, ?_, h3, h4, h5, h6, h7, h8, h9⟩
      · rw [processNbrs, if_neg hv]
        exact h1
      · rw [List.filter_cons_of_neg, h2]
        have hinv : mz.idx? q = none := by
          apply idx?_none_of_invalid
          intro hc
          exact hv (is_valid_iff.mpr hc)
        rw [hinv]
        simp

/-! ## The BFS loop invariant -/

/-- Invariant of the BFS `while` loop of `Maze::solve`, starting from `start`:
the cost field is `1` at `start` and `0` exactly on unvisited cells, every
visited cell is open with a visited parent one cost lower, the queue holds only
visited cells with nondecreasing costs inside a band of width one, finished
cells have all their open neighbours visited, and the recorded exit (if any)
is a visited non-start boundary cell whose cost all visited non-start boundary
cells share. -/
structure BfsInv (mz : Maze) (start : Point) (queue : List Point)
    (costs : Matrix Nat) (exitOpt : Option Point) : Prop where
  dimn : costs.n = mz.n
  dimm : costs.m = mz.m
  diml : costs.data.length = mz.n * mz.m
  startOpen : mz.idx? start = some false
  startCost : cval costs start = 1
  costedOpen : ∀ p, cval costs p ≠ 0 → mz.idx? p = some false
  costedLow : ∀ p, cval costs p ≠ 0 → cval costs p ≤ nzc costs
  costedMin : ∀ p, cval costs p ≠ 0 → p ≠ start → 2 ≤ cval costs p
  parent : ∀ p, cval costs p ≠ 0 → p ≠ start →
    ∃ q, q ∈ neighbours p ∧ cval costs q ≠ 0 ∧ cval costs q + 1 = cval costs p
  queueCosted : ∀ q ∈ queue, cval costs q ≠ 0
  queueSorted : List.Pairwise (fun a b => cval costs a ≤ cval costs b) queue
  band : ∀ q ∈ queue, ∀ p, cval costs p ≠ 0 → cval costs p ≤ cval costs q + 1
  closure : ∀ p, cval costs p ≠ 0 → p ∉ queue →
    ∀ r ∈ neighbours p, mz.idx? r = some false →
      cval costs r ≠ 0 ∧ cval costs r ≤ cval costs p + 1
  exitSome : ∀ e, exitOpt = some e → cval costs e ≠ 0 ∧ e ≠ start ∧
    mz.is_exit e = true ∧
    (∀ p, cval costs p ≠ 0 → p ≠ start → mz.is_exit p = true →
      cval costs p = cval costs e)
  exitNone : exitOpt = none → ∀ p, cval costs p ≠ 0 → p ≠ start →
    mz.is_exit p = false

theorem cval_open_valid {mz : Maze} {start : Point} {queue : List Point}
    {costs : Matrix Nat} {exitOpt : Option Point}
    (hinv : BfsInv mz start queue costs exitOpt) {p : Point}
    (hp : cval costs p ≠ 0) : validPt mz p :=
  idx?_valid (hinv.costedOpen p hp)

/-- The Lipschitz property of the final (and every) cost field: across an open
adjacency, visited costs increase by at most one. -/
theorem bfsInv_lipschitz {mz : Maze} {start : Point} {queue : List Point}
    {costs : Matrix Nat} {exitOpt : Option Point}
    (hinv : BfsInv mz start queue costs exitOpt) {p r : Point}
    (hp : cval costs p ≠ 0) (hr : cval costs r ≠ 0) (hmem : r ∈ neighbours p) :
    cval costs r ≤ cval costs p + 1 := by
  by_cases hq : p ∈ queue
  · exact hinv.band p hq r hr
  · exact (hinv.closure p hp hq r hmem (hinv.costedOpen r hr)).2

/-- The invariant holds on entry to the loop: cost `1` at `start`, queue
`[start]`, no exit recorded. -/
theorem bfsInv_init {mz : Maze} {start : Point} {costs0 : Matrix Nat}
    (hwf : Wf mz) (hopen : mz.idx? start = some false)
    (hset : (Matrix.new Nat mz.n mz.m).set? start 1 = some costs0) :
    BfsInv mz start [start] costs0 none := by
  have hval : validPt mz start := idx?_valid hopen
  have hnewdims : (Matrix.new Nat mz.n mz.m).n = mz.n ∧
      (Matrix.new Nat mz.n mz.m).m = mz.m ∧
      (Matrix.new Nat mz.n mz.m).data.length = mz.n * mz.m := by
    refine ⟨rfl, rfl, ?_⟩
    rw [Matrix.new]
    simp
  have hd := set?_dims hset
  have hpt : ∀ r, costs0.idx? r = if r = start then some 1 else
      (Matrix.new Nat mz.n mz.m).idx? r := fun r => idx?_after_set? hset r
  have hnewpt : ∀ r : Point, (Matrix.new Nat mz.n mz.m).idx? r =
      if validPt mz r then some 0 else none := by
    intro r
    by_cases hv : validPt mz r
    · rw [if_pos hv]
      rw [Matrix.idx?, if_pos ⟨hv.1, hv.2⟩]
      rw [Matrix.new]
      simp only []
      rw [List.getElem?_replicate]
      rw [if_pos]
      · rfl
      · exact linIdx_lt hv.1 hv.2
    · rw [if_neg hv]
      exact idx?_none_of_invalid (by
        intro hc
        exact hv ⟨hc.1, hc.2⟩)
  have hcv : ∀ r, cval costs0 r = if r = start then 1 else 0 := by
    intro r
    rw [cval, hpt r]
    by_cases hr : r = start
    · rw [if_pos hr, if_pos hr]
      rfl
    · rw [if_neg hr, if_neg hr, hnewpt r]
      by_cases hv : validPt mz r
      · rw [if_pos hv]; rfl
      · rw [if_neg hv]; rfl
  have honly : ∀ p, cval costs0 p ≠ 0 → p = start := by
    intro p hp
    by_contra hne
    rw [hcv p, if_neg hne] at hp
    exact hp rfl
  have hstart1 : cval costs0 start = 1 := by
    rw [hcv start, if_pos rfl]
  have hnz : nzc costs0 = 1 := by
    obtain ⟨h1, h2, h3, h4⟩ := set?_eq_some hset
    rw [nzc, h4]
    simp only []
    have hrep : (Matrix.new Nat mz.n mz.m).data =
        List.replicate (mz.n * mz.m) 0 := rfl
    have hlen : start.1 * (Matrix.new Nat mz.n mz.m).m + start.2 <
        mz.n * mz.m := by
      rw [← hnewdims.2.2]
      exact h3
    have hsome : (Matrix.new Nat mz.n mz.m).data[start.1 *
        (Matrix.new Nat mz.n mz.m).m + start.2]? = some 0 := by
      rw [hrep, List.getElem?_replicate, if_pos hlen]
    have := countP_set' (fun x : Nat => x != 0) (Matrix.new Nat mz.n mz.m).data
      (start.1 * (Matrix.new Nat mz.n mz.m).m + start.2) 1 0 hsome
    have hz : List.countP (fun x : Nat => x != 0)
        (Matrix.new Nat mz.n mz.m).data = 0 := by
      rw [hrep]
      rw [List.countP_eq_zero]
      intro a ha
      rw [List.eq_of_mem_replicate ha]
      simp
    rw [hz] at this
    simpa using this
  refine ⟨hd.1.trans hnewdims.1, hd.2.1.trans hnewdims.2.1,
    hd.2.2.trans hnewdims.2.2, hopen, hstart1, ?_, ?_, ?_, ?_, ?_, ?_, ?_, ?_,
    ?_, ?_⟩
  · intro p hp
    rw [honly p hp]
    exact hopen
  · intro p hp
    rw [honly p hp, hstart1, hnz]
  · intro p hp hne
    exact absurd (honly p hp) hne
  · intro p hp hne
    exact absurd (honly p hp) hne
  · intro q hq
    rw [List.mem_singleton] at hq
    rw [hq, hstart1]
    omega
  · exact List.pairwise_singleton _ _
  · intro q hq p hp
    rw [List.mem_singleton] at hq
    rw [honly p hp, hq, hstart1]
    omega
  · intro p hp hq
    exfalso
    rw [honly p hp] at hq
    exact hq (List.mem_singleton.mpr rfl)
  · intro e he
    exact absurd he (by simp)
  · intro _ p hp hne
    exact absurd (honly p hp) hne

theorem pairwise_le_of_const {f : Point → Nat} (c : Nat) (l : List Point)
    (h : ∀ a ∈ l, f a = c) : List.Pairwise (fun a b => f a ≤ f b) l := by
  induction l with
  | nil => exact List.Pairwise.nil
  | cons a t ih =>
    refine List.Pairwise.cons ?_ (ih ?_)
    · intro b hb
      rw [h a (List.mem_cons_self a t), h b (List.mem_cons_of_mem a hb)]
    · intro b hb
      exact h b (List.mem_cons_of_mem a hb)

/-- One dequeue step of the BFS loop preserves the invariant; the newly
visited cells are appended to the queue and counted by the visited counter. -/
theorem bfsInv_step {mz : Maze} {start current : Point} {queue : List Point}
    {costs : Matrix Nat} (hwf : Wf mz)
    (hinv : BfsInv mz start (current :: queue) costs none) :
    ∃ costs' exitOpt' news,
      processNbrs mz current (neighbours current) costs none [] =
        some (costs', exitOpt', news) ∧
      BfsInv mz start (queue ++ news) costs' exitOpt' ∧
      nzc costs' = nzc costs + news.length ∧
      costs'.data.length = costs.data.length ∧
      (∀ p, cval costs p ≠ 0 → cval costs' p = cval costs p) := by
  obtain ⟨hwl, hWn, hWm, hWnm⟩ := hwf
  have hcc0 : cval costs current ≠ 0 :=
    hinv.queueCosted current (List.mem_cons_self current queue)
  obtain ⟨cc, hccs, hccnz⟩ := costed_valid hcc0
  have hccval : cval costs current = cc := cval_eq_of_idx? hccs
  have hvalc : validPt mz current := cval_open_valid hinv hcc0
  have hc1W : current.1 < W := by obtain ⟨a, b⟩ := hvalc; omega
  have hc2W : current.2 < W := by obtain ⟨a, b⟩ := hvalc; omega
  have hnzlen : nzc costs ≤ costs.data.length := by
    unfold nzc
    exact List.countP_le_length _
  have hlt : cc + 1 < W := by
    have h1 : cc ≤ nzc costs := hccval ▸ hinv.costedLow current hcc0
    have h2 : costs.data.length = mz.n * mz.m := hinv.diml
    omega
  obtain ⟨costs', exitOpt', news, h1, h2, h3, h4, h5, h6, h7, h8, h9⟩ :=
    processNbrs_spec mz current cc (neighbours current) costs none []
      hwl hinv.dimn hinv.dimm hinv.diml hccs hlt
      (neighbours_nodup current hc1W hc2W)
      (self_not_mem_neighbours current hc1W hc2W)
  -- basic facts about news
  have hnewsmem : ∀ p ∈ news, p ∈ neighbours current ∧
      mz.idx? p = some false ∧ costs.idx? p = some 0 := by
    intro p hp
    rw [h2] at hp
    obtain ⟨hmem, hcond⟩ := List.mem_filter.mp hp
    simp only [Bool.and_eq_true, beq_iff_eq] at hcond
    exact ⟨hmem, hcond.1, hcond.2⟩
  have hcvaln : ∀ p ∈ news, cval costs' p = cc + 1 :=
    fun p hp => cval_eq_of_idx? (h6 p hp)
  have hcval0 : ∀ p ∈ news, cval costs p = 0 :=
    fun p hp => cval_eq_of_idx? (hnewsmem p hp).2.2
  have holdnot : ∀ p, cval costs p ≠ 0 → p ∉ news := by
    intro p hp hc
    exact hp (hcval0 p hc)
  have hkeep : ∀ p, cval costs p ≠ 0 → cval costs' p = cval costs p := by
    intro p hp
    rw [cval, h7 p (holdnot p hp), cval]
  have hcases : ∀ p, cval costs' p ≠ 0 → cval costs p ≠ 0 ∨ p ∈ news := by
    intro p hp
    by_cases hn : p ∈ news
    · exact Or.inr hn
    · left
      intro hc
      rw [cval, h7 p hn, ← cval] at hp
      exact hp hc
  have hnewsnz : ∀ p ∈ news, cval costs' p ≠ 0 := by
    intro p hp
    rw [hcvaln p hp]
    omega
  have hstartnot : start ∉ news := by
    apply holdnot
    rw [hinv.startCost]
    omega
  have hcurnot : current ∉ news :=
    holdnot current hcc0
  have hcurval : cval costs' current = cc := by
    rw [hkeep current hcc0, hccval]
  have hccband : ∀ p, cval costs p ≠ 0 → cval costs p ≤ cc + 1 := by
    intro p hp
    have := hinv.band current (List.mem_cons_self current queue) p hp
    omega
  have hsorthead : ∀ q ∈ queue, cc ≤ cval costs q := by
    intro q hq
    have := List.rel_of_pairwise_cons hinv.queueSorted hq
    omega
  refine ⟨costs', exitOpt', news, h1, ?_, h8, h5, hkeep⟩
  refine ⟨h3.trans hinv.dimn, h4.trans hinv.dimm, h5.trans hinv.diml,
    hinv.startOpen, ?_, ?_, ?_, ?_, ?_, ?_, ?_, ?_, ?_, ?_, ?_⟩
  · -- startCost
    rw [hkeep start (by rw [hinv.startCost]; omega), hinv.startCost]
  · -- costedOpen
    intro p hp
    rcases hcases p hp with ho | hn
    · exact hinv.costedOpen p ho
    · exact (hnewsmem p hn).2.1
  · -- costedLow
    intro p hp
    rw [h8]
    rcases hcases p hp with ho | hn
    · rw [hkeep p ho]
      have := hinv.costedLow p ho
      omega
    · rw [hcvaln p hn]
      have h1' : cc ≤ nzc costs := hccval ▸ hinv.costedLow current hcc0
      have h2' : 1 ≤ news.length := by
        cases news with
        | nil => exact absurd hn (List.not_mem_nil p)
        | cons a t => simp
      omega
  · -- costedMin
    intro p hp hne
    rcases hcases p hp with ho | hn
    · rw [hkeep p ho]
      exact hinv.costedMin p ho hne
    · rw [hcvaln p hn]
      omega
  · -- parent
    intro p hp hne
    rcases hcases p hp with ho | hn
    · obtain ⟨q, hq1, hq2, hq3⟩ := hinv.parent p ho hne
      exact ⟨q, hq1, by rw [hkeep q hq2]; exact hq2,
        by rw [hkeep q hq2, hkeep p ho]; exact hq3⟩
    · refine ⟨current, ?_, by rw [hcurval]; exact hccnz, ?_⟩
      · exact mem_neighbours_symm hWn hWm hvalc
          (idx?_valid (hnewsmem p hn).2.1) (hnewsmem p hn).1
      · rw [hcurval, hcvaln p hn]
  · -- queueCosted
    intro q hq
    rcases List.mem_append.mp hq with ho | hn
    · have := hinv.queueCosted q (List.mem_cons_of_mem current ho)
      rw [hkeep q this]
      exact this
    · exact hnewsnz q hn
  · -- queueSorted
    rw [List.pairwise_append]
    refine ⟨?_, ?_, ?_⟩
    · have hq := hinv.queueSorted.of_cons
      refine hq.imp_of_mem ?_
      intro a b ha hb hab
      have hca := hinv.queueCosted a (List.mem_cons_of_mem current ha)
      have hcb := hinv.queueCosted b (List.mem_cons_of_mem current hb)
      rw [hkeep a hca, hkeep b hcb]
      exact hab
    · exact pairwise_le_of_const (cc + 1) news hcvaln
    · intro a ha b hb
      have hca := hinv.queueCosted a (List.mem_cons_of_mem current ha)
      rw [hkeep a hca, hcvaln b hb]
      exact hccband a hca
  · -- band
    intro q hq p hp
    rcases List.mem_append.mp hq with hqo | hqn
    · have hcq := hinv.queueCosted q (List.mem_cons_of_mem current hqo)
      rw [hkeep q hcq]
      rcases hcases p hp with ho | hn
      · rw [hkeep p ho]
        exact hinv.band q (List.mem_cons_of_mem current hqo) p ho
      · rw [hcvaln p hn]
        have := hsorthead q hqo
        omega
    · rw [hcvaln q hqn]
      rcases hcases p hp with ho | hn
      · rw [hkeep p ho]
        have := hccband p ho
        omega
      · rw [hcvaln p hn]
        omega
  · -- closure
    intro p hp hpq r hr hropen
    by_cases hpc : p = current
    · subst hpc
      by_cases hrn : r ∈ news
      · rw [hcvaln r hrn, hcurval]
        exact ⟨by omega, by omega⟩
      · -- r is open, a neighbour of current, yet not newly visited:
        -- it must have been visited already
        have hrval : validPt mz r := idx?_valid hropen
        have hrvalc : validPt costs r := by
          rw [validPt, hinv.dimn, hinv.dimm]
          exact hrval
        have hdl' : costs.data.length = costs.n * costs.m := by
          rw [hinv.dimn, hinv.dimm]
          exact hinv.diml
        obtain ⟨k, hk, _⟩ := idx?_eq_some_of_valid hdl' hrvalc
        have hknz : k ≠ 0 := by
          intro hk0
          apply hrn
          rw [h2, List.mem_filter]
          refine ⟨hr, ?_⟩
          rw [hropen, hk, hk0]
          simp
        have hrc : cval costs r ≠ 0 := by
          rw [cval_eq_of_idx? hk]
          exact hknz
        rw [hkeep r hrc, hcurval]
        exact ⟨hrc, by have := hccband r hrc; omega⟩
    · have hpold : cval costs p ≠ 0 := by
        rcases hcases p hp with ho | hn
        · exact ho
        · exact absurd (List.mem_append.mpr (Or.inr hn)) hpq
      have hpnotold : p ∉ current :: queue := by
        intro hc
        rcases List.mem_cons.mp hc with he | ht
        · exact hpc he
        · exact hpq (List.mem_append.mpr (Or.inl ht))
      obtain ⟨hrc, hrb⟩ := hinv.closure p hpold hpnotold r hr hropen
      rw [hkeep r hrc, hkeep p hpold]
      exact ⟨hrc, hrb⟩
  · -- exitSome
    intro e he
    rcases h9 with ⟨hnoex, hsame⟩ | ⟨e', he', hmem', hex'⟩
    · rw [hsame] at he
      exact absurd he (by simp)
    · rw [he'] at he
      rw [Option.some.injEq] at he
      subst he
      refine ⟨hnewsnz e' hmem', fun hc => hstartnot (hc ▸ hmem'), hex', ?_⟩
      intro p hp hne hex
      rcases hcases p hp with ho | hn
      · exact absurd hex (by
          rw [hinv.exitNone rfl p ho hne]
          simp)
      · rw [hcvaln p hn, hcvaln e' hmem']
  · -- exitNone
    intro he p hp hne
    rcases h9 with ⟨hnoex, hsame⟩ | ⟨e', he', hmem', hex'⟩
    · rcases hcases p hp with ho | hn
      · exact hinv.exitNone rfl p ho hne
      · exact hnoex p hn
    · rw [he'] at he
      exact absurd he (by simp)

/-- The BFS loop, run with enough fuel from an invariant state, returns
normally with the invariant holding at a final queue state; the final queue is
empty when no exit was recorded. -/
theorem bfs_run {mz : Maze} {start : Point} (hwf : Wf mz) :
    ∀ (fuel : Nat) (queue : List Point) (costs : Matrix Nat)
      (exitOpt : Option Point),
      BfsInv mz start queue costs exitOpt →
      costs.data.length - nzc costs + queue.length < fuel →
      ∃ costs' exitOpt' queue',
        bfs mz fuel queue costs exitOpt = some (costs', exitOpt') ∧
        BfsInv mz start queue' costs' exitOpt' ∧
        (exitOpt' = none → queue' = []) ∧
        (∀ p, cval costs p ≠ 0 → cval costs' p = cval costs p) := by
  intro fuel
  induction fuel with
  | zero =>
    intro queue costs exitOpt _ hfuel
    omega
  | succ fuel ih =>
    intro queue costs exitOpt hinv hfuel
    cases queue with
    | nil =>
      refine ⟨costs, exitOpt, [], ?_, hinv, fun _ => rfl, fun p _ => rfl⟩
      rw [bfs]
    | cons current queue =>
      cases hex : exitOpt with
      | some e =>
        refine ⟨costs, exitOpt, current :: queue, ?_, hinv, ?_, fun p _ => rfl⟩
        · rw [bfs, hex]
          simp
        · intro hc
          rw [hex] at hc
          exact absurd hc (by simp)
      | none =>
        subst hex
        obtain ⟨costs2, exit2, news, hproc, hinv2, hnz2, hlen2, hkeep2⟩ :=
          bfsInv_step hwf hinv
        have hnz2le : nzc costs2 ≤ costs2.data.length := by
          unfold nzc
          exact List.countP_le_length _
        have hfuel2 : costs2.data.length - nzc costs2 +
            (queue ++ news).length < fuel := by
          rw [hlen2, hnz2, List.length_append]
          simp only [List.length_cons] at hfuel
          rw [hlen2, hnz2] at hnz2le
          omega
        obtain ⟨costs', exitOpt', queue', hrun, hinv', hqe, hkeep'⟩ :=
          ih (queue ++ news) costs2 exit2 hinv2 hfuel2
        refine ⟨costs', exitOpt', queue', ?_, hinv', hqe, ?_⟩
        · rw [bfs]
          simp only [Option.isSome_none, Bool.false_eq_true, if_false, hproc]
          exact hrun
        · intro p hp
          rw [hkeep' p (by rw [hkeep2 p hp]; exact hp), hkeep2 p hp]

/-! ## Path restoration -/

/-- If some neighbour qualifies (in bounds, visited, strictly cheaper), the
inner restoration loop returns the first qualifying one. -/
theorem findNext_some {mz : Maze} {costs : Matrix Nat} (cc : Nat)
    (hdn : costs.n = mz.n) (hdm : costs.m = mz.m)
    (hdl : costs.data.length = mz.n * mz.m) :
    ∀ (l : List Point),
      (∃ q ∈ l, validPt mz q ∧ cval costs q ≠ 0 ∧ cval costs q < cc) →
      ∃ q', findNext mz costs cc l = some q' ∧ q' ∈ l ∧ validPt mz q' ∧
        cval costs q' ≠ 0 ∧ cval costs q' < cc := by
  intro l
  induction l with
  | nil =>
    intro h
    obtain ⟨q, hq, _⟩ := h
    exact absurd hq (List.not_mem_nil q)
  | cons a rest ih =>
    intro h
    by_cases hv : mz.is_valid a = true
    · have hvp : validPt mz a := is_valid_iff.mp hv
      have hvpc : validPt costs a := by
        rw [validPt, hdn, hdm]; exact hvp
      have hdl' : costs.data.length = costs.n * costs.m := by
        rw [hdn, hdm]; exact hdl
      obtain ⟨ca, hca, _⟩ := idx?_eq_some_of_valid hdl' hvpc
      have hcva : cval costs a = ca := cval_eq_of_idx? hca
      by_cases hgood : ca ≠ 0 ∧ ca < cc
      · refine ⟨a, ?_, List.mem_cons_self a rest, hvp, ?_, ?_⟩
        · simp only [findNext, hv, if_true, hca]
          rw [if_pos hgood]
        · rw [hcva]; exact hgood.1
        · rw [hcva]; exact hgood.2
      · have hwit : ∃ q ∈ rest, validPt mz q ∧ cval costs q ≠ 0 ∧
            cval costs q < cc := by
          obtain ⟨q, hq, hq1, hq2, hq3⟩ := h
          rcases List.mem_cons.mp hq with rfl | hq'
          · exact absurd ⟨by rwa [hcva] at hq2, by rwa [hcva] at hq3⟩ hgood
          · exact ⟨q, hq', hq1, hq2, hq3⟩
        obtain ⟨q', hf, hm, h1, h2, h3⟩ := ih hwit
        refine ⟨q', ?_, List.mem_cons_of_mem a hm, h1, h2, h3⟩
        simp only [findNext, hv, if_true, hca]
        rw [if_neg hgood]
        exact hf
    · have hwit : ∃ q ∈ rest, validPt mz q ∧ cval costs q ≠ 0 ∧
          cval costs q < cc := by
        obtain ⟨q, hq, hq1, hq2, hq3⟩ := h
        rcases List.mem_cons.mp hq with rfl | hq'
        · exact absurd (is_valid_iff.mpr hq1) hv
        · exact ⟨q, hq', hq1, hq2, hq3⟩
      obtain ⟨q', hf, hm, h1, h2, h3⟩ := ih hwit
      refine ⟨q', ?_, List.mem_cons_of_mem a hm, h1, h2, h3⟩
      rw [findNext, if_neg hv]
      exact hf

/-- Running the restoration loop from a visited cell with fuel equal to its
cost reaches `start`, appending a strictly-descending visited chain. -/
theorem restore_run {mz : Maze} {start : Point} {queue : List Point}
    {costs : Matrix Nat} {exitOpt : Option Point} (hwf : Wf mz)
    (hinv : BfsInv mz start queue costs exitOpt) :
    ∀ (k : Nat) (current : Point) (acc : List Point),
      cval costs current = k → cval costs current ≠ 0 →
      ∃ tail, restore mz costs start k current acc = some (acc ++ tail) ∧
        List.Chain (fun a b => b ∈ neighbours a ∧ cval costs b ≠ 0 ∧
          cval costs b + 1 = cval costs a) current tail ∧
        (current :: tail).getLast? = some start ∧
        tail.length + 1 = k := by
  intro k
  induction k with
  | zero =>
    intro current acc hk hnz
    exact absurd hk hnz
  | succ k ih =>
    intro current acc hk hnz
    by_cases hcs : current = start
    · subst hcs
      have h1 : k = 0 := by
        rw [hinv.startCost] at hk
        omega
      subst h1
      refine ⟨[], ?_, List.Chain.nil, ?_, rfl⟩
      · rw [restore, if_pos rfl, List.append_nil]
      · simp
    · have hk2 : 2 ≤ k + 1 := by
        have := hinv.costedMin current hnz hcs
        omega
      obtain ⟨cc, hccs, hccnz⟩ := costed_valid hnz
      have hcceq : cc = k + 1 := by
        rw [cval_eq_of_idx? hccs] at hk
        exact hk
      obtain ⟨par, hpar1, hpar2, hpar3⟩ := hinv.parent current hnz hcs
      have hparval : validPt mz par := cval_open_valid hinv hpar2
      obtain ⟨q', hfind, hqmem, hqval, hqnz, hqlt⟩ :=
        findNext_some (k + 1) hinv.dimn hinv.dimm hinv.diml
          (neighbours current)
          ⟨par, hpar1, hparval, hpar2, by omega⟩
      -- the chosen neighbour has cost exactly one lower
      have hcurval : validPt mz current := cval_open_valid hinv hnz
      have hcurmem : current ∈ neighbours q' :=
        mem_neighbours_symm hwf.2.1 hwf.2.2.1 hcurval hqval hqmem
      have hlip := bfsInv_lipschitz hinv hqnz hnz hcurmem
      have hqk : cval costs q' = k := by
        rw [hk] at hlip
        omega
      have hqnz' : cval costs q' ≠ 0 := hqnz
      obtain ⟨tail, hrest, hchain, hlast, hlen⟩ := ih q' (acc ++ [q']) hqk hqnz'
      refine ⟨q' :: tail, ?_, ?_, ?_, ?_⟩
      · simp only [restore, if_neg hcs, hccs, hcceq, hfind, hrest]
        rw [List.append_assoc]
        rfl
      · exact List.Chain.cons ⟨hqmem, hqnz, by rw [hqk, hk]⟩ hchain
      · rw [List.getLast?_cons_cons]
        exact hlast
      · simp only [List.length_cons]
        omega

/-- Anatomy of a `solve` call from an open start cell of a well-formed maze:
the BFS reaches an invariant-final state, and `solve` returns `None` exactly
on the no-exit outcome, otherwise the reconstructed descending path. -/
theorem solve_anatomy {mz : Maze} {start : Point} (hwf : Wf mz)
    (hopen : mz.idx? start = some false) :
    ∃ costs exitOpt queue', BfsInv mz start queue' costs exitOpt ∧
      ((exitOpt = none ∧ queue' = [] ∧ Matrix.solve mz start = some none) ∨
       (∃ e tail, exitOpt = some e ∧
         Matrix.solve mz start = some (some ((e :: tail).reverse)) ∧
         List.Chain (fun a b => b ∈ neighbours a ∧ cval costs b ≠ 0 ∧
           cval costs b + 1 = cval costs a) e tail ∧
         (e :: tail).getLast? = some start ∧
         tail.length + 1 = cval costs e)) := by
  have hval : validPt mz start := idx?_valid hopen
  have hnewdim : (Matrix.new Nat mz.n mz.m).data.length =
      (Matrix.new Nat mz.n mz.m).n * (Matrix.new Nat mz.n mz.m).m := by
    rw [Matrix.new]
    simp
  have hvalnew : validPt (Matrix.new Nat mz.n mz.m) start := hval
  have hset := set?_eq_some_of_valid hnewdim hvalnew 1
  set costs0 : Matrix Nat := ⟨(Matrix.new Nat mz.n mz.m).data.set
    (start.1 * (Matrix.new Nat mz.n mz.m).m + start.2) 1,
    (Matrix.new Nat mz.n mz.m).n, (Matrix.new Nat mz.n mz.m).m⟩ with hc0
  have hinv0 : BfsInv mz start [start] costs0 none := bfsInv_init hwf hopen hset
  have hnz0 : 1 ≤ nzc costs0 := by
    have h1 : cval costs0 start = 1 := hinv0.startCost
    have h2 := hinv0.costedLow start (by rw [h1]; omega)
    omega
  have hlen0 : costs0.data.length = mz.n * mz.m := hinv0.diml
  have hfuel0 : costs0.data.length - nzc costs0 + [start].length <
      mz.n * mz.m + 1 := by
    rw [hlen0]
    have hnm : 1 ≤ mz.n * mz.m := by
      obtain ⟨h1, h2⟩ := hval
      exact Nat.mul_pos (by omega) (by omega)
    simp only [List.length_singleton]
    omega
  obtain ⟨costs, exitOpt, queue', hrun, hinvF, hqe, _⟩ :=
    bfs_run hwf (mz.n * mz.m + 1) [start] costs0 none hinv0 hfuel0
  refine ⟨costs, exitOpt, queue', hinvF, ?_⟩
  cases hex : exitOpt with
  | none =>
    subst hex
    left
    refine ⟨rfl, hqe rfl, ?_⟩
    simp only [Matrix.solve, hopen, hset, hrun]
  | some e =>
    subst hex
    right
    obtain ⟨henz, hens, henx, _⟩ := hinvF.exitSome e rfl
    obtain ⟨fe, hfe, hfenz⟩ := costed_valid henz
    have hfeval : cval costs e = fe := cval_eq_of_idx? hfe
    obtain ⟨tail, hrest, hchain, hlast, hlen⟩ :=
      restore_run hwf hinvF fe e [e] hfeval henz
    refine ⟨e, tail, rfl, ?_, hchain, hlast, by rw [hfeval]; exact hlen⟩
    simp only [Matrix.solve, hopen, hset, hrun, hfe, hrest]
    rfl

/-! ## Generator: reachable loop states and step analysis -/

/-- States reachable by iterating the frontier loop. -/
inductive GenReach (R : Nat → Nat) : GenState → GenState → Prop where
  | refl (s : GenState) : GenReach R s s
  | step {a b c : GenState} : GenReach R a b → stepGen R b = .next c →
      GenReach R a c

/-- Complete case analysis of one frontier-loop iteration that continues. -/
theorem stepGen_next_cases {R : Nat → Nat} {s s' : GenState}
    (h : stepGen R s = .next s') :
    ∃ current, s.cells[R s.k % s.cells.length]? = some current ∧
      ((openNbrCount s.mz current < 2 ∧ ∃ mz',
          s.mz.set? current false = some mz' ∧
          s' = ⟨mz', swapRemove s.cells (R s.k % s.cells.length) ++
            walledNbrs mz' current, s.k + 1⟩) ∨
       (2 ≤ openNbrCount s.mz current ∧
          s' = ⟨s.mz, swapRemove s.cells (R s.k % s.cells.length), s.k + 1⟩)) := by
  unfold stepGen at h
  split at h
  · exact absurd h (by simp)
  next current hcur =>
    refine ⟨current, hcur, ?_⟩
    split at h
    next hexp =>
      split at h
      · exact absurd h (by simp)
      next mz' hset =>
        rw [GenRes.next.injEq] at h
        exact Or.inl ⟨hexp, mz', hset, h.symm⟩
    next hexp =>
      rw [GenRes.next.injEq] at h
      exact Or.inr ⟨by omega, h.symm⟩

theorem countP_eraseIdx (p : α → Bool) (l : List α) (i : Nat) (a : α)
    (h : l[i]? = some a) :
    (l.eraseIdx i).countP p + (if p a then 1 else 0) = l.countP p := by
  obtain ⟨hi, hv⟩ := List.getElem?_eq_some.mp h
  rw [List.eraseIdx_eq_take_drop_succ, List.countP_append]
  conv_rhs => rw [← List.take_append_drop i l]
  rw [List.countP_append]
  have hdrop : l.drop i = a :: l.drop (i + 1) := by
    rw [← hv]
    simpa using (List.getElem_cons_drop l i hi).symm
  rw [hdrop, List.countP_cons]
  by_cases hp : p a <;> simp [hp] <;> omega

/-- `swap_remove i` returns a permutation of dropping index `i`. -/
theorem swapRemove_perm (l : List α) (i : Nat) (a : α)
    (h : l[i]? = some a) : (swapRemove l i).Perm (l.eraseIdx i) := by
  obtain ⟨hi, hv⟩ := List.getElem?_eq_some.mp h
  have hne : l ≠ [] := by
    intro hc
    subst hc
    simp at hi
  obtain ⟨last, hlast⟩ : ∃ b, l.getLast? = some b := by
    cases hc : l.getLast? with
    | none => exact absurd (List.getLast?_eq_none_iff.mp hc) hne
    | some b => exact ⟨b, rfl⟩
  have hsw : swapRemove l i = (l.set i last).dropLast := by
    simp [swapRemove, hlast]
  rcases Nat.lt_or_ge i (l.length - 1) with hlt | hge
  · -- i is not the last index
    have hlastd : (l.drop (i + 1)).getLast? = some last := by
      rw [List.getLast?_eq_getElem?] at hlast ⊢
      rw [List.getElem?_drop]
      have harith : i + 1 + ((l.drop (i + 1)).length - 1) = l.length - 1 := by
        rw [List.length_drop]
        omega
      rw [harith]
      exact hlast
    have hdeq := List.dropLast_append_getLast? last hlastd
    cases hX : l.drop (i + 1) with
    | nil =>
      exfalso
      have := congrArg List.length hX
      rw [List.length_drop] at this
      simp at this
      omega
    | cons c X =>
      rw [hsw, List.set_eq_take_cons_drop last hi, List.dropLast_append_cons,
        hX, List.dropLast_cons₂, List.eraseIdx_eq_take_drop_succ, hX]
      apply List.Perm.append_left
      rw [hX] at hdeq
      conv_rhs => rw [← hdeq]
      exact (List.perm_append_singleton last _).symm
  · -- i is the last index
    have hieq : i = l.length - 1 := by omega
    have hlasta : last = a := by
      rw [List.getLast?_eq_getElem?, ← hieq, h] at hlast
      exact (Option.some.inj hlast).symm
    have hset : l.set i last = l := by
      apply set_eq_self_of_get
      rw [h, hlasta]
    rw [hsw, hset]
    have hlen : i + 1 = l.length := by omega
    rw [List.dropLast_eq_eraseIdx hlen]

/-! ## The open-cell graph -/

/-- The graph whose vertices are grid points and whose edges join open cells
of the maze that are von-Neumann adjacent. -/
def openGraph (mz : Maze) : SimpleGraph Point where
  Adj p q := vonAdj p q ∧ mz.idx? p = some false ∧ mz.idx? q = some false
  symm := by
    rintro p q ⟨h1, h2, h3⟩
    exact ⟨vonAdj_symm h1, h3, h2⟩
  loopless := by
    rintro p ⟨h1, _, _⟩
    exact vonAdj_ne h1 rfl

/-- No cycle can pass through a vertex with (at most) one neighbour. -/
theorem no_cycle_at_leaf {G' : SimpleGraph Point} (c u : Point)
    (hG'c : ∀ x, G'.Adj c x → x = u) :
    ∀ (q : G'.Walk c c), ¬ q.IsCycle := by
  intro q hq
  cases q with
  | nil => exact SimpleGraph.Walk.IsCycle.not_of_nil hq
  | cons h r =>
    rename_i x
    rw [SimpleGraph.Walk.cons_isCycle_iff] at hq
    obtain ⟨hpath, hedge⟩ := hq
    have hxu : x = u := hG'c x h
    -- the final dart of `r` enters `c` from some neighbour, which must be `u`
    have hrnil : ¬ r.Nil := by
      intro hn
      have := SimpleGraph.Walk.Nil.eq hn
      exact G'.loopless c (this ▸ h)
    have hdne : r.darts ≠ [] := by
      intro hd
      apply hrnil
      rw [SimpleGraph.Walk.nil_iff_length_eq, ← SimpleGraph.Walk.length_darts,
        hd]
      rfl
    set d := r.darts.getLast hdne with hd
    have hdsnd : d.snd = c := SimpleGraph.Walk.getLast_darts_snd r hdne
    have hdadj : G'.Adj d.fst d.snd := d.adj
    have hdfst : d.fst = u := by
      apply hG'c
      rw [hdsnd] at hdadj
      exact hdadj.symm
    have hdmem : d ∈ r.darts := List.getLast_mem hdne
    have hedgemem : d.edge ∈ r.edges := List.mem_map_of_mem _ hdmem
    apply hedge
    have : d.edge = s(c, u) := by
      rw [SimpleGraph.Dart.edge]
      have : d.toProd = (u, c) := by
        rw [Prod.ext_iff]
        exact ⟨hdfst, hdsnd⟩
      rw [this]
      exact Sym2.eq_swap
    have hse : s(c, x) = d.edge := by rw [this, hxu]
    rw [hse]
    exact hedgemem

/-- Adding a leaf (a vertex with exactly one neighbour) to an acyclic graph
keeps it acyclic. -/
theorem isAcyclic_add_leaf {G G' : SimpleGraph Point} (c u : Point)
    (hacyc : G.IsAcyclic)
    (hG'c : ∀ x, G'.Adj c x → x = u)
    (hother : ∀ x y, x ≠ c → y ≠ c → G'.Adj x y → G.Adj x y) :
    G'.IsAcyclic := by
  intro v p hp
  by_cases hc : c ∈ p.support
  · exact no_cycle_at_leaf c u hG'c (p.rotate hc) (hp.rotate hc)
  · have hedges : ∀ e ∈ p.edges, e ∈ G.edgeSet := by
      intro e he
      induction e using Sym2.ind with
      | _ a b =>
        have hadj : G'.Adj a b := p.adj_of_mem_edges he
        have ha : a ∈ p.support := p.fst_mem_support_of_mem_edges he
        have hb : b ∈ p.support := p.snd_mem_support_of_mem_edges he
        have hane : a ≠ c := fun h2 => hc (h2 ▸ ha)
        have hbne : b ≠ c := fun h2 => hc (h2 ▸ hb)
        exact (hother a b hane hbne hadj)
    exact hacyc (p.transfer G hedges) (hp.transfer hedges)

/-! ## Iterating the frontier loop -/

/-- `j` iterations of the frontier loop from state `s` (`next s` means the
loop is still running and about to process state `s`). -/
def genIter (R : Nat → Nat) (j : Nat) (s : GenState) : GenRes :=
  match j with
  | 0 => GenRes.next s
  | j + 1 =>
    match stepGen R s with
    | .next s' => genIter R j s'
    | r => r

theorem genReach_head {R : Nat → Nat} {s s' t : GenState}
    (h1 : stepGen R s = GenRes.next s') (h2 : GenReach R s' t) :
    GenReach R s t := by
  induction h2 with
  | refl => exact GenReach.step (GenReach.refl s) h1
  | step hab hbc ih => exact GenReach.step ih hbc

/-- A reachable state other than the origin is reached through a first step. -/
theorem genReach_first {R : Nat → Nat} {s t : GenState}
    (h : GenReach R s t) (hne : t ≠ s) :
    ∃ s1, stepGen R s = GenRes.next s1 ∧ GenReach R s1 t := by
  induction h with
  | refl => exact absurd rfl hne
  | step hab hbc ih =>
    rename_i a c
    by_cases hbs : a = s
    · subst hbs
      exact ⟨c, hbc, GenReach.refl c⟩
    · obtain ⟨s1, h1, h2⟩ := ih hbs
      exact ⟨s1, h1, GenReach.step h2 hbc⟩

/-- The loop reports `done` exactly when the frontier has been drained, and
then returns the current maze. -/
theorem stepGen_done {R : Nat → Nat} {s : GenState} {mz : Maze}
    (h : stepGen R s = GenRes.done mz) : s.cells = [] ∧ mz = s.mz := by
  unfold stepGen at h
  split at h
  next hc =>
    refine ⟨?_, by cases h; rfl⟩
    by_contra hne
    have hlen : 0 < s.cells.length := List.length_pos.mpr hne
    have hlt : R s.k % s.cells.length < s.cells.length := Nat.mod_lt _ hlen
    rw [List.getElem?_eq_none_iff] at hc
    omega
  next current hcur =>
    split at h
    · split at h
      · exact absurd h (by simp)
      · exact absurd h (by simp)
    · exact absurd h (by simp)

/-- A normal return of the frontier loop is witnessed by a reachable state on
which the loop reports `done`. -/
theorem genLoop_some {R : Nat → Nat} {s : GenState} {mz : Maze}
    (h : genLoop R s = some mz) :
    ∃ t, GenReach R s t ∧ stepGen R t = GenRes.done mz := by
  induction s using genLoop.induct R with
  | case1 s mz' hstep =>
    rw [genLoop, hstep] at h
    cases h
    exact ⟨s, GenReach.refl s, hstep⟩
  | case2 s hstep =>
    rw [genLoop, hstep] at h
    cases h
  | case3 s s' hstep ih =>
    rw [genLoop, hstep] at h
    obtain ⟨t, h1, h2⟩ := ih h
    exact ⟨t, genReach_head hstep h1, h2⟩

/-- The frontier loop halts after finitely many iterations. -/
theorem genIter_halts (R : Nat → Nat) (s : GenState) :
    ∃ j, ∀ s', genIter R j s ≠ GenRes.next s' := by
  induction s using genLoop.induct R with
  | case1 s mz' hstep =>
    refine ⟨1, fun s' => ?_⟩
    simp [genIter, hstep]
  | case2 s hstep =>
    refine ⟨1, fun s' => ?_⟩
    simp [genIter, hstep]
  | case3 s s' hstep ih =>
    obtain ⟨j, hj⟩ := ih
    refine ⟨j + 1, fun s'' => ?_⟩
    simpa [genIter, hstep] using hj s''

theorem mem_eraseIdx_of_ne {l : List α} {i : Nat} {a q : α}
    (h : l[i]? = some a) (hq : q ∈ l) (hne : q ≠ a) : q ∈ l.eraseIdx i := by
  obtain ⟨hi, hv⟩ := List.getElem?_eq_some.mp h
  rw [List.eraseIdx_eq_take_drop_succ]
  have hsplit : l = l.take i ++ a :: l.drop (i + 1) := by
    conv_lhs => rw [← List.take_append_drop i l]
    congr 1
    rw [← hv]
    simpa using (List.getElem_cons_drop l i hi).symm
  rw [hsplit] at hq
  rcases List.mem_append.mp hq with h1 | h1
  · exact List.mem_append.mpr (Or.inl h1)
  · rcases List.mem_cons.mp h1 with rfl | h2
    · exact absurd rfl hne
    · exact List.mem_append.mpr (Or.inr h2)

/-- Writing back the value a cell already holds does not change the matrix. -/
theorem set?_self {A A' : Matrix α} {p : Point} {v : α}
    (h : A.set? p v = some A') (hv : A.idx? p = some v) : A' = A := by
  obtain ⟨h1, h2, h3, h4⟩ := set?_eq_some h
  rw [Matrix.idx?, if_pos ⟨h1, h2⟩] at hv
  rw [h4, set_eq_self_of_get A.data _ v hv]

/-- Per-iteration bookkeeping of the frontier loop: one frontier entry is
removed (the randomly chosen one), the pushed cells are walled at push time,
open cells stay open, and no open cell is pushed. -/
theorem stepGen_facts {R : Nat → Nat} {s s' : GenState}
    (h : stepGen R s = GenRes.next s') :
    ∃ i current pushed, i < s.cells.length ∧ s.cells[i]? = some current ∧
      s'.cells.Perm (s.cells.eraseIdx i ++ pushed) ∧
      (∀ q ∈ pushed, s'.mz.idx? q = some true) ∧
      (∀ p, s.mz.idx? p = some false → s'.mz.idx? p = some false) ∧
      (∀ p, s.mz.idx? p = some false → p ∉ pushed) ∧
      s'.mz.n = s.mz.n ∧ s'.mz.m = s.mz.m ∧
      s'.mz.data.length = s.mz.data.length ∧ s'.k = s.k + 1 := by
  obtain ⟨current, hcur, hcase⟩ := stepGen_next_cases h
  have hi : R s.k % s.cells.length < s.cells.length :=
    (List.getElem?_eq_some.mp hcur).1
  have hmono : ∀ (pushed : List Point),
      (∀ q ∈ pushed, s'.mz.idx? q = some true) →
      (∀ p, s.mz.idx? p = some false → s'.mz.idx? p = some false) →
      (∀ p, s.mz.idx? p = some false → p ∉ pushed) := by
    intro pushed hw hm p hp hmem
    have := hw p hmem
    rw [hm p hp] at this
    cases this
  rcases hcase with ⟨hcnt, mz', hset, hs'⟩ | ⟨hcnt, hs'⟩
  · -- carve branch
    have hopen : ∀ p, s.mz.idx? p = some false → mz'.idx? p = some false := by
      intro p hp
      rw [idx?_after_set? hset p]
      split
      · rfl
      · exact hp
    refine ⟨R s.k % s.cells.length, current, walledNbrs mz' current, hi, hcur,
      ?_, ?_, ?_, ?_, ?_, ?_, ?_, ?_⟩
    · rw [hs']
      exact (swapRemove_perm s.cells _ current hcur).append_right _
    · intro q hq
      rw [hs']
      simp only [walledNbrs, List.mem_filter, Bool.and_eq_true, beq_iff_eq]
        at hq
      exact hq.2.2
    · intro p hp
      rw [hs']
      exact hopen p hp
    · refine hmono _ ?_ ?_
      · intro q hq
        rw [hs']
        simp only [walledNbrs, List.mem_filter, Bool.and_eq_true, beq_iff_eq]
          at hq
        exact hq.2.2
      · intro p hp
        rw [hs']
        exact hopen p hp
    · rw [hs']
      exact (set?_dims hset).1
    · rw [hs']
      exact (set?_dims hset).2.1
    · rw [hs']
      exact (set?_dims hset).2.2
    · rw [hs']
  · -- skip branch
    refine ⟨R s.k % s.cells.length, current, [], hi, hcur, ?_, ?_, ?_, ?_,
      ?_, ?_, ?_, ?_⟩
    · rw [hs', List.append_nil]
      exact swapRemove_perm s.cells _ current hcur
    · intro q hq
      cases hq
    · intro p hp
      rw [hs']
      exact hp
    · intro p _ hmem
      cases hmem
    · rw [hs']
    · rw [hs']
    · rw [hs']
    · rw [hs']

/-! ## The generation-loop invariant -/

theorem mem_walledNbrs {mz : Maze} {c q : Point} :
    q ∈ walledNbrs mz c ↔ q ∈ neighbours c ∧ validPt mz q ∧
      mz.idx? q = some true := by
  simp only [walledNbrs, List.mem_filter, Bool.and_eq_true, beq_iff_eq,
    is_valid_iff, and_assoc]

theorem openNbrCount_pos {mz : Maze} {c r : Point} (hmem : r ∈ neighbours c)
    (hopen : mz.idx? r = some false) : 1 ≤ openNbrCount mz c := by
  have hval : validPt mz r := idx?_valid hopen
  have hin : r ∈ (neighbours c).filter
      fun q => mz.is_valid q && (mz.idx? q == some false) := by
    rw [List.mem_filter]
    refine ⟨hmem, ?_⟩
    rw [Bool.and_eq_true, beq_iff_eq]
    exact ⟨is_valid_iff.mpr hval, hopen⟩
  have := List.length_pos.mpr (List.ne_nil_of_mem hin)
  unfold openNbrCount
  omega

/-- Carving can only increase the number of open neighbours. -/
theorem openNbrCount_mono {mz mz' : Maze} {c : Point}
    (hset : mz.set? c false = some mz') (q : Point) :
    openNbrCount mz q ≤ openNbrCount mz' q := by
  have hdims := set?_dims hset
  apply List.Sublist.length_le
  apply List.monotone_filter_right
  intro r hr
  simp only [Bool.and_eq_true, beq_iff_eq] at hr ⊢
  obtain ⟨hv, ho⟩ := hr
  constructor
  · rw [Matrix.is_valid] at hv ⊢
    rw [hdims.1, hdims.2.1]
    exact hv
  · rw [idx?_after_set? hset r]
    split
    · rfl
    · exact ho

theorem openGraph_mono {mz mz' : Maze}
    (h : ∀ p, mz.idx? p = some false → mz'.idx? p = some false) :
    openGraph mz ≤ openGraph mz' := by
  intro a b hab
  exact ⟨hab.1, h a hab.2.1, h b hab.2.2⟩

/-- When a popped frontier cell has fewer than two explored neighbours but at
least one, its in-bounds open neighbours form exactly one cell. -/
theorem openNbr_unique {mz : Maze} {c : Point}
    (hlt : openNbrCount mz c < 2)
    (hex : ∃ r ∈ neighbours c, mz.idx? r = some false) :
    ∃ u, u ∈ neighbours c ∧ mz.idx? u = some false ∧
      ∀ x, x ∈ neighbours c → mz.idx? x = some false → x = u := by
  obtain ⟨r, hrmem, hropen⟩ := hex
  have h1 : 1 ≤ openNbrCount mz c := openNbrCount_pos hrmem hropen
  have hlen : ((neighbours c).filter
      fun q => mz.is_valid q && (mz.idx? q == some false)).length = 1 := by
    unfold openNbrCount at hlt h1
    omega
  obtain ⟨u, hu⟩ := List.length_eq_one.mp hlen
  have humem : u ∈ (neighbours c).filter
      fun q => mz.is_valid q && (mz.idx? q == some false) := by
    rw [hu]
    exact List.mem_singleton.mpr rfl
  have hum := List.mem_filter.mp humem
  have hub : mz.idx? u = some false := by
    have := hum.2
    simp only [Bool.and_eq_true, beq_iff_eq] at this
    exact this.2
  refine ⟨u, hum.1, hub, ?_⟩
  intro x hxmem hxopen
  have hxval : validPt mz x := idx?_valid hxopen
  have hxin : x ∈ (neighbours c).filter
      fun q => mz.is_valid q && (mz.idx? q == some false) := by
    rw [List.mem_filter]
    refine ⟨hxmem, ?_⟩
    rw [Bool.and_eq_true, beq_iff_eq]
    exact ⟨is_valid_iff.mpr hxval, hxopen⟩
  rw [hu] at hxin
  exact List.mem_singleton.mp hxin

/-- Invariant of the frontier loop of `Maze::generate` for dimensions `n`,
`m` and initially carved boundary cell `start`: dimensions are fixed, `start`
stays open, frontier entries are in bounds and touch the open region, every
walled cell touching the open region is on the frontier or already twice
explored, and the open region is connected to `start` and acyclic. -/
structure GenInv (n m : Nat) (start : Point) (s : GenState) : Prop where
  dimn : s.mz.n = n
  dimm : s.mz.m = m
  diml : s.mz.data.length = n * m
  startOpen : s.mz.idx? start = some false
  cellsValid : ∀ q ∈ s.cells, validPt s.mz q
  cellsAdj : ∀ q ∈ s.cells, ∃ r ∈ neighbours q, s.mz.idx? r = some false
  frontier : ∀ q, validPt s.mz q → s.mz.idx? q = some true →
    (∃ r ∈ neighbours q, s.mz.idx? r = some false) →
    q ∈ s.cells ∨ 2 ≤ openNbrCount s.mz q
  conn : ∀ p, s.mz.idx? p = some false → (openGraph s.mz).Reachable p start
  acyclic : (openGraph s.mz).IsAcyclic

/-- The invariant holds right after the initial boundary carve. -/
theorem genInv_of_carve {n m : Nat} (hnW : n < W) (hmW : m < W)
    {start : Point} {mz1 : Maze}
    (hset : (⟨List.replicate (n * m) true, n, m⟩ : Maze).set? start false =
      some mz1) :
    GenInv n m start ⟨mz1, walledNbrs mz1 start, 3⟩ ∧
      ∀ p, mz1.idx? p = some false → p = start := by
  obtain ⟨h1, h2, h3, h4⟩ := set?_eq_some hset
  have hdims := set?_dims hset
  have hnd : mz1.n = n := hdims.1
  have hmd : mz1.m = m := hdims.2.1
  have hld : mz1.data.length = n * m := by
    rw [hdims.2.2]
    simp
  have hso : mz1.idx? start = some false := by
    rw [idx?_after_set? hset start, if_pos rfl]
  have honly : ∀ p, mz1.idx? p = some false → p = start := by
    intro p hp
    rw [idx?_after_set? hset p] at hp
    by_cases hps : p = start
    · exact hps
    · exfalso
      rw [if_neg hps, Matrix.idx?] at hp
      split at hp
      next hv =>
        have hlt : p.1 * m + p.2 < n * m := linIdx_lt hv.1 hv.2
        rw [List.getElem?_replicate, if_pos hlt] at hp
        cases hp
      · cases hp
  have hsv : validPt mz1 start := idx?_valid hso
  have hnW1 : mz1.n < W := by rw [hnd]; exact hnW
  have hmW1 : mz1.m < W := by rw [hmd]; exact hmW
  refine ⟨⟨hnd, hmd, hld, hso, ?_, ?_, ?_, ?_, ?_⟩, honly⟩
  · intro q hq
    exact (mem_walledNbrs.mp hq).2.1
  · intro q hq
    obtain ⟨hqm, hqv, _⟩ := mem_walledNbrs.mp hq
    exact ⟨start, mem_neighbours_symm hnW1 hmW1 hsv hqv hqm, hso⟩
  · intro q hvq hwq hex
    obtain ⟨r, hrmem, hropen⟩ := hex
    have hrs := honly r hropen
    subst hrs
    left
    exact mem_walledNbrs.mpr ⟨mem_neighbours_symm hnW1 hmW1 hvq hsv hrmem,
      hvq, hwq⟩
  · intro p hp
    have := honly p hp
    subst this
    exact SimpleGraph.Reachable.refl p
  · have hbot : openGraph mz1 = ⊥ := by
      apply le_bot_iff.mp
      intro a b hab
      exfalso
      have ha := honly a hab.2.1
      have hb := honly b hab.2.2
      subst ha
      subst hb
      exact vonAdj_ne hab.1 rfl
    rw [hbot]
    exact SimpleGraph.isAcyclic_bot

/-- One continuing iteration of the frontier loop preserves the invariant. -/
theorem genInv_step {n m : Nat} {R : Nat → Nat} {start : Point}
    {s s' : GenState} (hnW : n < W) (hmW : m < W)
    (hinv : GenInv n m start s) (h : stepGen R s = GenRes.next s') :
    GenInv n m start s' := by
  obtain ⟨current, hcur, hcase⟩ := stepGen_next_cases h
  have hcurmem : current ∈ s.cells := List.getElem?_mem hcur
  have hcurval : validPt s.mz current := hinv.cellsValid current hcurmem
  have hnWs : s.mz.n < W := by rw [hinv.dimn]; exact hnW
  have hmWs : s.mz.m < W := by rw [hinv.dimm]; exact hmW
  have hswal : ∀ q ∈ swapRemove s.cells (R s.k % s.cells.length), q ∈ s.cells := by
    intro q hq
    rw [(swapRemove_perm s.cells _ current hcur).mem_iff] at hq
    exact List.eraseIdx_subset _ _ hq
  have hswal2 : ∀ q ∈ s.cells, q ≠ current →
      q ∈ swapRemove s.cells (R s.k % s.cells.length) := by
    intro q hq hne
    rw [(swapRemove_perm s.cells _ current hcur).mem_iff]
    exact mem_eraseIdx_of_ne hcur hq hne
  rcases hcase with ⟨hcnt, mz', hset, hs'⟩ | ⟨hcnt, hs'⟩
  · -- carve branch
    obtain ⟨cv, hcv, _⟩ := idx?_eq_some_of_valid
      (by rw [hinv.diml, hinv.dimn, hinv.dimm]) hcurval
    cases cv with
    | false =>
      -- carving an already-open cell: the maze does not change
      have hmz : mz' = s.mz := set?_self hset hcv
      subst hmz
      subst hs'
      refine ⟨hinv.dimn, hinv.dimm, hinv.diml, hinv.startOpen, ?_, ?_, ?_,
        hinv.conn, hinv.acyclic⟩
      · intro q hq
        rcases List.mem_append.mp hq with hq1 | hq1
        · exact hinv.cellsValid q (hswal q hq1)
        · exact (mem_walledNbrs.mp hq1).2.1
      · intro q hq
        rcases List.mem_append.mp hq with hq1 | hq1
        · exact hinv.cellsAdj q (hswal q hq1)
        · obtain ⟨hqm, hqv, _⟩ := mem_walledNbrs.mp hq1
          exact ⟨current, mem_neighbours_symm hnWs hmWs hcurval hqv hqm, hcv⟩
      · intro q hvq hwq hex
        rcases hinv.frontier q hvq hwq hex with hmem | hge
        · by_cases hqc : q = current
          · exfalso
            rw [hqc, hcv] at hwq
            cases hwq
          · exact Or.inl (List.mem_append.mpr (Or.inl (hswal2 q hmem hqc)))
        · exact Or.inr hge
    | true =>
      subst hs'
      have hdims := set?_dims hset
      have hmono : ∀ p, s.mz.idx? p = some false → mz'.idx? p = some false := by
        intro p hp
        rw [idx?_after_set? hset p]
        split
        · rfl
        · exact hp
      have hcuropen : mz'.idx? current = some false := by
        rw [idx?_after_set? hset current, if_pos rfl]
      have hback : ∀ p, p ≠ current → mz'.idx? p = s.mz.idx? p := by
        intro p hp
        rw [idx?_after_set? hset p, if_neg hp]
      have hvdims : ∀ q, validPt mz' q ↔ validPt s.mz q := by
        intro q
        unfold validPt
        rw [hdims.1, hdims.2.1]
      obtain ⟨u, humem, huopen, huniq⟩ :=
        openNbr_unique hcnt (hinv.cellsAdj current hcurmem)
      have huval : validPt s.mz u := idx?_valid huopen
      have hnW' : mz'.n < W := by rw [hdims.1]; exact hnWs
      have hmW' : mz'.m < W := by rw [hdims.2.1]; exact hmWs
      have hcurval' : validPt mz' current := (hvdims current).mpr hcurval
      have hle : openGraph s.mz ≤ openGraph mz' := openGraph_mono hmono
      refine ⟨hdims.1.trans hinv.dimn, hdims.2.1.trans hinv.dimm,
        hdims.2.2.trans hinv.diml, hmono start hinv.startOpen, ?_, ?_, ?_,
        ?_, ?_⟩
      · intro q hq
        rcases List.mem_append.mp hq with hq1 | hq1
        · exact (hvdims q).mpr (hinv.cellsValid q (hswal q hq1))
        · exact (mem_walledNbrs.mp hq1).2.1
      · intro q hq
        rcases List.mem_append.mp hq with hq1 | hq1
        · obtain ⟨r, hrm, hro⟩ := hinv.cellsAdj q (hswal q hq1)
          exact ⟨r, hrm, hmono r hro⟩
        · obtain ⟨hqm, hqv, _⟩ := mem_walledNbrs.mp hq1
          exact ⟨current, mem_neighbours_symm hnW' hmW' hcurval' hqv hqm,
            hcuropen⟩
      · intro q hvq hwq hex
        by_cases hqc : q = current
        · exfalso
          rw [hqc, hcuropen] at hwq
          cases hwq
        by_cases hcn : current ∈ neighbours q
        · left
          refine List.mem_append.mpr (Or.inr (mem_walledNbrs.mpr
            ⟨mem_neighbours_symm hnW' hmW' hvq hcurval' hcn, hvq, hwq⟩))
        · obtain ⟨r, hrmem, hropen'⟩ := hex
          have hrc : r ≠ current := by
            intro he
            rw [he] at hrmem
            exact hcn hrmem
          have hropen : s.mz.idx? r = some false := by
            rw [← hback r hrc]
            exact hropen'
          have hwqs : s.mz.idx? q = some true := by
            rw [← hback q hqc]
            exact hwq
          rcases hinv.frontier q ((hvdims q).mp hvq) hwqs ⟨r, hrmem, hropen⟩
            with hmem | hge
          · exact Or.inl (List.mem_append.mpr (Or.inl (hswal2 q hmem hqc)))
          · exact Or.inr (le_trans hge (openNbrCount_mono hset q))
      · intro p hpo
        have hustart : (openGraph mz').Reachable u start :=
          (hinv.conn u huopen).mono hle
        have hadjcu : (openGraph mz').Adj current u :=
          ⟨vonAdj_of_mem_neighbours hnWs hmWs hcurval huval humem,
            hcuropen, hmono u huopen⟩
        by_cases hpc : p = current
        · subst hpc
          exact hadjcu.reachable.trans hustart
        · have hps : s.mz.idx? p = some false := by
            rw [← hback p hpc]
            exact hpo
          exact (hinv.conn p hps).mono hle
      · refine isAcyclic_add_leaf current u hinv.acyclic ?_ ?_
        · intro x hx
          have hxc : x ≠ current := fun he => vonAdj_ne hx.1 (by rw [he])
          have hxval : validPt s.mz x := (hvdims x).mp (idx?_valid hx.2.2)
          have hxo : s.mz.idx? x = some false := by
            rw [← hback x hxc]
            exact hx.2.2
          have hxmem : x ∈ neighbours current :=
            mem_neighbours_of_vonAdj
              (by obtain ⟨a, b⟩ := hcurval; omega)
              (by obtain ⟨a, b⟩ := hcurval; omega)
              (by obtain ⟨a, b⟩ := hxval; omega)
              (by obtain ⟨a, b⟩ := hxval; omega) hx.1
          exact huniq x hxmem hxo
        · intro x y hxc hyc hadj
          refine ⟨hadj.1, ?_, ?_⟩
          · rw [← hback x hxc]
            exact hadj.2.1
          · rw [← hback y hyc]
            exact hadj.2.2
  · -- skip branch
    subst hs'
    refine ⟨hinv.dimn, hinv.dimm, hinv.diml, hinv.startOpen, ?_, ?_, ?_,
      hinv.conn, hinv.acyclic⟩
    · intro q hq
      exact hinv.cellsValid q (hswal q hq)
    · intro q hq
      exact hinv.cellsAdj q (hswal q hq)
    · intro q hvq hwq hex
      rcases hinv.frontier q hvq hwq hex with hmem | hge
      · by_cases hqc : q = current
        · subst hqc
          exact Or.inr hcnt
        · exact Or.inl (hswal2 q hmem hqc)
      · exact Or.inr hge

/-- The invariant is transported along any number of loop iterations. -/
theorem genInv_reach {n m : Nat} {R : Nat → Nat} {start : Point}
    {s t : GenState} (hnW : n < W) (hmW : m < W)
    (hinv : GenInv n m start s) (h : GenReach R s t) : GenInv n m start t := by
  induction h with
  | refl => exact hinv
  | step hab hbc ih => exact genInv_step hnW hmW ih hbc

/-! ## The drained generator state -/

/-- Any in-bounds cell of a grid with at least two cells has an in-bounds
neighbour (distinct from itself). -/
theorem exists_valid_nbr {mz : Maze} {p : Point} (hnW : mz.n < W)
    (hmW : mz.m < W) (hv : validPt mz p) (h2 : 2 ≤ mz.n * mz.m) :
    ∃ r, r ∈ neighbours p ∧ validPt mz r ∧ r ≠ p := by
  obtain ⟨p1, p2⟩ := p
  have hv1 : p1 < mz.n := hv.1
  have hv2 : p2 < mz.m := hv.2
  have hp1W : p1 < W := by omega
  have hp2W : p2 < W := by omega
  have hcase : p1 + 1 < mz.n ∨ 0 < p1 ∨ p2 + 1 < mz.m ∨ 0 < p2 := by
    by_contra hc
    push_neg at hc
    obtain ⟨a, b, c, d⟩ := hc
    have hn1 : mz.n = 1 := by omega
    have hm1 : mz.m = 1 := by omega
    rw [hn1, hm1] at h2
    omega
  rcases hcase with hc | hc | hc | hc
  · refine ⟨(p1 + 1, p2), ?_, ⟨hc, hv2⟩, ?_⟩
    · exact mem_neighbours_of_vonAdj hp1W hp2W (show p1 + 1 < W by omega)
        hp2W (Or.inr ⟨rfl, Or.inl rfl⟩)
    · intro he
      rw [Prod.mk.injEq] at he
      omega
  · refine ⟨(p1 - 1, p2), ?_, ⟨show p1 - 1 < mz.n by omega, hv2⟩, ?_⟩
    · exact mem_neighbours_of_vonAdj hp1W hp2W (show p1 - 1 < W by omega)
        hp2W (Or.inr ⟨rfl, Or.inr (show p1 - 1 + 1 = p1 by omega)⟩)
    · intro he
      rw [Prod.mk.injEq] at he
      omega
  · refine ⟨(p1, p2 + 1), ?_, ⟨hv1, hc⟩, ?_⟩
    · exact mem_neighbours_of_vonAdj hp1W hp2W hp1W
        (show p2 + 1 < W by omega) (Or.inl ⟨rfl, Or.inl rfl⟩)
    · intro he
      rw [Prod.mk.injEq] at he
      omega
  · refine ⟨(p1, p2 - 1), ?_, ⟨hv1, show p2 - 1 < mz.m by omega⟩, ?_⟩
    · exact mem_neighbours_of_vonAdj hp1W hp2W hp1W
        (show p2 - 1 < W by omega)
        (Or.inl ⟨rfl, Or.inr (show p2 - 1 + 1 = p2 by omega)⟩)
    · intro he
      rw [Prod.mk.injEq] at he
      omega

/-- Characterisation of a successful generator setup: the invariant holds,
the carved cell is on the boundary and is the only open cell, and the initial
frontier is walled (and nonempty as soon as the grid has two cells). -/
theorem genInit_some {n m : Nat} {R : Nat → Nat} {start : Point}
    {s0 : GenState} (hnW : n < W) (hmW : m < W)
    (h : genInit n m R = some (start, s0)) :
    GenInv n m start s0 ∧ (start.1 = 0 ∨ start.2 = 0) ∧
      (∀ p, s0.mz.idx? p = some false → p = start) ∧
      (∀ q ∈ s0.cells, s0.mz.idx? q = some true) ∧
      (2 ≤ n * m → s0.cells ≠ []) := by
  have hmain : ∀ (st : Point) (mz1 : Maze),
      (⟨List.replicate (n * m) true, n, m⟩ : Maze).set? st false = some mz1 →
      (st.1 = 0 ∨ st.2 = 0) →
      GenInv n m st ⟨mz1, walledNbrs mz1 st, 3⟩ ∧ (st.1 = 0 ∨ st.2 = 0) ∧
        (∀ p, mz1.idx? p = some false → p = st) ∧
        (∀ q ∈ walledNbrs mz1 st, mz1.idx? q = some true) ∧
        (2 ≤ n * m → walledNbrs mz1 st ≠ []) := by
    intro st mz1 hset hbd
    obtain ⟨hinv, honly⟩ := genInv_of_carve hnW hmW hset
    refine ⟨hinv, hbd, honly, ?_, ?_⟩
    · intro q hq
      exact (mem_walledNbrs.mp hq).2.2
    · intro h2
      have hso : mz1.idx? st = some false := hinv.startOpen
      have hsv : validPt mz1 st := idx?_valid hso
      have hnm1 : 2 ≤ mz1.n * mz1.m := by
        rw [hinv.dimn, hinv.dimm]
        exact h2
      obtain ⟨r, hrm, hrv, hrne⟩ := exists_valid_nbr
        (by rw [hinv.dimn]; exact hnW) (by rw [hinv.dimm]; exact hmW)
        hsv hnm1
      obtain ⟨v, hv, _⟩ := idx?_eq_some_of_valid
        (by rw [hinv.diml, hinv.dimn, hinv.dimm]) hrv
      cases v with
      | false => exact absurd (honly r hv) hrne
      | true => exact List.ne_nil_of_mem (mem_walledNbrs.mpr ⟨hrm, hrv, hv⟩)
  simp only [genInit] at h
  split at h
  · cases h
  split at h
  · split at h
    · cases h
    next mz1 hset =>
      rw [Option.some.injEq, Prod.mk.injEq] at h
      obtain ⟨h1, h2⟩ := h
      subst h1
      subst h2
      exact hmain _ _ hset (Or.inr rfl)
  · split at h
    · cases h
    next mz1 hset =>
      rw [Option.some.injEq, Prod.mk.injEq] at h
      obtain ⟨h1, h2⟩ := h
      subst h1
      subst h2
      exact hmain _ _ hset (Or.inl rfl)

/-- Open cells stay open across the whole run of the frontier loop. -/
theorem genReach_open_mono {R : Nat → Nat} {s t : GenState}
    (h : GenReach R s t) :
    ∀ p, s.mz.idx? p = some false → t.mz.idx? p = some false := by
  induction h with
  | refl => exact fun _ hp => hp
  | step hab hbc ih =>
    intro p hp
    obtain ⟨_, _, _, _, _, _, _, hmono, _⟩ := stepGen_facts hbc
    exact hmono p (ih p hp)

/-- The open cells of a maze as a finite set. -/
def openFinset (mz : Maze) : Finset Point :=
  (Finset.range mz.n ×ˢ Finset.range mz.m).filter
    fun p => mz.idx? p = some false

theorem mem_openFinset {mz : Maze} {p : Point} :
    p ∈ openFinset mz ↔ mz.idx? p = some false := by
  unfold openFinset
  rw [Finset.mem_filter]
  constructor
  · exact fun h => h.2
  · intro h
    obtain ⟨h1, h2⟩ := idx?_valid h
    exact ⟨Finset.mem_product.mpr
      ⟨Finset.mem_range.mpr h1, Finset.mem_range.mpr h2⟩, h⟩

theorem length_le_one_of_nodup_const {l : List α} {c : α} (hnd : l.Nodup)
    (hall : ∀ x ∈ l, x = c) : l.length ≤ 1 := by
  cases l with
  | nil => simp
  | cons a t =>
    cases t with
    | nil => simp
    | cons b t2 =>
      exfalso
      have ha := hall a (by simp)
      have hb := hall b (by simp)
      rw [List.nodup_cons] at hnd
      apply hnd.1
      rw [ha, hb]
      exact List.mem_cons_self c t2

/-- A cell all of whose in-bounds open neighbours coincide has at most one
explored neighbour. -/
theorem openNbrCount_le_one {mz : Maze} {q0 c : Point}
    (h1 : q0.1 < W) (h2 : q0.2 < W)
    (hall : ∀ r, r ∈ neighbours q0 → mz.idx? r = some false → r = c) :
    openNbrCount mz q0 ≤ 1 := by
  unfold openNbrCount
  apply length_le_one_of_nodup_const
    (List.Nodup.filter _ (neighbours_nodup q0 h1 h2))
  intro x hx
  obtain ⟨hxm, hxp⟩ := List.mem_filter.mp hx
  simp only [Bool.and_eq_true, beq_iff_eq] at hxp
  exact hall x hxm hxp.2

/-- In a drained generator state (every walled cell next to the open region
has two open neighbours) with at least two open cells, every point has an
open boundary cell different from it. -/
theorem sealed_exit {mz : Maze} (hnW : mz.n < W) (hmW : mz.m < W)
    (hlen : mz.data.length = mz.n * mz.m)
    (hfront : ∀ q, validPt mz q → mz.idx? q = some true →
      (∃ r ∈ neighbours q, mz.idx? r = some false) → 2 ≤ openNbrCount mz q)
    {a b : Point} (ha : mz.idx? a = some false) (hb : mz.idx? b = some false)
    (hab : a ≠ b) (p : Point) :
    ∃ e, mz.idx? e = some false ∧ mz.is_exit e = true ∧ e ≠ p := by
  by_cases hn1 : mz.n = 1
  · -- every cell is on row 0, hence every open cell is an exit
    have hexit : ∀ q : Point, mz.idx? q = some false → mz.is_exit q = true := by
      intro q hq
      have hqv := idx?_valid hq
      have hq1 : q.1 = 0 := by
        have := hqv.1
        omega
      rw [Matrix.is_exit, hq1]
      simp
    by_cases hap : a = p
    · exact ⟨b, hb, hexit b hb, fun he => hab (hap.trans he.symm)⟩
    · exact ⟨a, ha, hexit a ha, hap⟩
  · -- the open region touches both row 0 and row n-1
    obtain ⟨cmax, hcmaxmem, hcmaxmax⟩ :=
      (openFinset mz).exists_max_image Prod.fst ⟨a, mem_openFinset.mpr ha⟩
    obtain ⟨cmin, hcminmem, hcminmin⟩ :=
      (openFinset mz).exists_min_image Prod.fst ⟨a, mem_openFinset.mpr ha⟩
    have hcmaxopen : mz.idx? cmax = some false := mem_openFinset.mp hcmaxmem
    have hcminopen : mz.idx? cmin = some false := mem_openFinset.mp hcminmem
    have hmaxrow : ∀ q : Point, mz.idx? q = some false → q.1 ≤ cmax.1 :=
      fun q hq => hcmaxmax q (mem_openFinset.mpr hq)
    have hminrow : ∀ q : Point, mz.idx? q = some false → cmin.1 ≤ q.1 :=
      fun q hq => hcminmin q (mem_openFinset.mpr hq)
    obtain ⟨c1, c2⟩ := cmax
    obtain ⟨d1, d2⟩ := cmin
    have hcv : validPt mz (c1, c2) := idx?_valid hcmaxopen
    have hdv : validPt mz (d1, d2) := idx?_valid hcminopen
    have hc1n : c1 < mz.n := hcv.1
    have hc2m : c2 < mz.m := hcv.2
    have hd1n : d1 < mz.n := hdv.1
    have hd2m : d2 < mz.m := hdv.2
    -- the maximal open row is the last row
    have hc1 : c1 = mz.n - 1 := by
      by_contra hne
      have hlt : c1 + 1 < mz.n := by omega
      have hq0v : validPt mz (c1 + 1, c2) := ⟨hlt, hc2m⟩
      have hq0w : mz.idx? (c1 + 1, c2) = some true := by
        obtain ⟨v, hv, _⟩ := idx?_eq_some_of_valid hlen hq0v
        cases v with
        | false =>
          have hle : c1 + 1 ≤ c1 := hmaxrow (c1 + 1, c2) hv
          omega
        | true => exact hv
      have hcmem : (c1, c2) ∈ neighbours (c1 + 1, c2) :=
        mem_neighbours_of_vonAdj (show c1 + 1 < W by omega)
          (show c2 < W by omega) (show c1 < W by omega)
          (show c2 < W by omega) (Or.inr ⟨rfl, Or.inr rfl⟩)
      have h2c := hfront (c1 + 1, c2) hq0v hq0w ⟨(c1, c2), hcmem, hcmaxopen⟩
      have h1c : openNbrCount mz (c1 + 1, c2) ≤ 1 := by
        apply openNbrCount_le_one (show c1 + 1 < W by omega)
          (show c2 < W by omega)
        intro r hrm hro
        obtain ⟨r1, r2⟩ := r
        have hrval : validPt mz (r1, r2) := idx?_valid hro
        have hadj := vonAdj_of_mem_neighbours hnW hmW hq0v hrval hrm
        have hrle : r1 ≤ c1 := hmaxrow (r1, r2) hro
        rcases hadj with ⟨he1, he2⟩ | ⟨he1, he2⟩
        · exfalso
          have he1' : c1 + 1 = r1 := he1
          omega
        · have he1' : c2 = r2 := he1
          have hr1 : r1 = c1 := by
            rcases he2 with he2 | he2
            · have he2' : c1 + 1 + 1 = r1 := he2
              omega
            · have he2' : r1 + 1 = c1 + 1 := he2
              omega
          rw [Prod.mk.injEq]
          exact ⟨hr1, he1'.symm⟩
      omega
    -- the minimal open row is row 0
    have hd1 : d1 = 0 := by
      by_contra hne
      have h0 : 0 < d1 := by omega
      have hq0v : validPt mz (d1 - 1, d2) := ⟨by omega, hd2m⟩
      have hq0w : mz.idx? (d1 - 1, d2) = some true := by
        obtain ⟨v, hv, _⟩ := idx?_eq_some_of_valid hlen hq0v
        cases v with
        | false =>
          have hle : d1 ≤ d1 - 1 := hminrow (d1 - 1, d2) hv
          omega
        | true => exact hv
      have hcmem : (d1, d2) ∈ neighbours (d1 - 1, d2) :=
        mem_neighbours_of_vonAdj (show d1 - 1 < W by omega)
          (show d2 < W by omega) (show d1 < W by omega)
          (show d2 < W by omega)
          (Or.inr ⟨rfl, Or.inl (show d1 - 1 + 1 = d1 by omega)⟩)
      have h2c := hfront (d1 - 1, d2) hq0v hq0w ⟨(d1, d2), hcmem, hcminopen⟩
      have h1c : openNbrCount mz (d1 - 1, d2) ≤ 1 := by
        apply openNbrCount_le_one (show d1 - 1 < W by omega)
          (show d2 < W by omega)
        intro r hrm hro
        obtain ⟨r1, r2⟩ := r
        have hrval : validPt mz (r1, r2) := idx?_valid hro
        have hadj := vonAdj_of_mem_neighbours hnW hmW hq0v hrval hrm
        have hrge : d1 ≤ r1 := hminrow (r1, r2) hro
        rcases hadj with ⟨he1, he2⟩ | ⟨he1, he2⟩
        · exfalso
          have he1' : d1 - 1 = r1 := he1
          omega
        · have he1' : d2 = r2 := he1
          have hr1 : r1 = d1 := by
            rcases he2 with he2 | he2
            · have he2' : d1 - 1 + 1 = r1 := he2
              omega
            · have he2' : r1 + 1 = d1 - 1 := he2
              omega
          rw [Prod.mk.injEq]
          exact ⟨hr1, he1'.symm⟩
      omega
    have hmaxexit : mz.is_exit (c1, c2) = true := by
      rw [Matrix.is_exit]
      have : ((c1, c2) : Point).1 = mz.n - 1 := hc1
      rw [this]
      simp
    have hminexit : mz.is_exit (d1, d2) = true := by
      rw [Matrix.is_exit]
      have : ((d1, d2) : Point).1 = 0 := hd1
      rw [this]
      simp
    by_cases hcp : ((c1, c2) : Point) = p
    · refine ⟨(d1, d2), hcminopen, hminexit, ?_⟩
      intro he
      rw [← hcp] at he
      rw [Prod.mk.injEq] at he
      omega
    · exact ⟨(c1, c2), hcmaxopen, hmaxexit, hcp⟩

/-- A walk in the open-cell graph yields a von-Neumann-adjacent chain of open
cells. -/
theorem walk_chain {mz : Maze} {p e : Point} (w : (openGraph mz).Walk p e)
    (he : mz.idx? e = some false) :
    List.Chain vonAdj p w.support.tail ∧
      ∀ x ∈ w.support, mz.idx? x = some false := by
  revert he
  induction w with
  | nil =>
    intro he
    refine ⟨List.Chain.nil, ?_⟩
    intro x hx
    rw [SimpleGraph.Walk.support_nil, List.mem_singleton] at hx
    rw [hx]
    exact he
  | cons h w ih =>
    intro he
    rename_i x y t
    obtain ⟨ihc, iho⟩ := ih he
    constructor
    · rw [SimpleGraph.Walk.support_cons, List.tail_cons]
      rw [SimpleGraph.Walk.support_eq_cons w]
      exact List.Chain.cons h.1 ihc
    · intro z hz
      rw [SimpleGraph.Walk.support_cons, List.mem_cons] at hz
      rcases hz with rfl | hz
      · exact h.2.1
      · exact iho z hz

/-- Shape analysis of a normally returning `solve` call. -/
theorem solve_shape {mz : Maze} {start : Point} {r : Option Path}
    (h : Matrix.solve mz start = some r) :
    (mz.idx? start = some true ∧ r = none) ∨ mz.idx? start = some false := by
  cases hidx : mz.idx? start with
  | none =>
    rw [Matrix.solve, hidx] at h
    exact absurd h (by simp)
  | some b =>
    cases b with
    | true =>
      rw [Matrix.solve, hidx] at h
      simp only [Option.some.injEq] at h
      exact Or.inl ⟨rfl, h.symm⟩
    | false => exact Or.inr rfl

/-- Every cell of a descending restoration chain is visited, and the chain
steps are von-Neumann adjacencies. -/
theorem descend_chain_facts {mz : Maze} {start : Point} {queue : List Point}
    {costs : Matrix Nat} {exitOpt : Option Point} (hwf : Wf mz)
    (hinv : BfsInv mz start queue costs exitOpt) :
    ∀ (tail : List Point) (a : Point), cval costs a ≠ 0 →
      List.Chain (fun a b => b ∈ neighbours a ∧ cval costs b ≠ 0 ∧
        cval costs b + 1 = cval costs a) a tail →
      (∀ p ∈ a :: tail, cval costs p ≠ 0) ∧ List.Chain vonAdj a tail := by
  intro tail
  induction tail with
  | nil =>
    intro a ha _
    refine ⟨?_, List.Chain.nil⟩
    intro p hp
    rw [List.mem_singleton] at hp
    rw [hp]
    exact ha
  | cons b l ih =>
    intro a ha hch
    cases hch with
    | cons hr hch' =>
      obtain ⟨hmem, hbnz, _⟩ := hr
      obtain ⟨hall, hadj⟩ := ih b hbnz hch'
      refine ⟨?_, ?_⟩
      · intro p hp
        rcases List.mem_cons.mp hp with rfl | hp'
        · exact ha
        · exact hall p hp'
      · refine List.Chain.cons ?_ hadj
        exact vonAdj_of_mem_neighbours hwf.2.1 hwf.2.2.1
          (cval_open_valid hinv ha) (cval_open_valid hinv hbnz) hmem

/-- When the BFS drained its queue without an exit, the visited region is
closed under open adjacency: every open von-Neumann path from a visited cell
stays visited. -/
theorem costed_of_reach {mz : Maze} {start : Point} {costs : Matrix Nat}
    (hwf : Wf mz) (hinv : BfsInv mz start [] costs none) :
    ∀ (l : List Point) (a : Point), cval costs a ≠ 0 → List.Chain vonAdj a l →
      (∀ p ∈ l, mz.idx? p = some false) → ∀ b ∈ l, cval costs b ≠ 0 := by
  intro l
  induction l with
  | nil =>
    intro a _ _ _ b hb
    exact absurd hb (List.not_mem_nil b)
  | cons c l ih =>
    intro a ha hch hopen b hb
    cases hch with
    | cons hr hch' =>
      have hcopen : mz.idx? c = some false := hopen c (List.mem_cons_self c l)
      have hcmem : c ∈ neighbours a := by
        have hn := hwf.2.1
        have hm := hwf.2.2.1
        obtain ⟨x1, y1⟩ := cval_open_valid hinv ha
        obtain ⟨x2, y2⟩ := idx?_valid hcopen
        exact mem_neighbours_of_vonAdj (by omega) (by omega) (by omega)
          (by omega) hr
      have hcnz : cval costs c ≠ 0 :=
        (hinv.closure a ha (List.not_mem_nil a) c hcmem hcopen).1
      rcases List.mem_cons.mp hb with rfl | hb'
      · exact hcnz
      · exact ih c hcnz hch' (fun p hp => hopen p (List.mem_cons_of_mem c hp))
          b hb'

/-! ## Theorems for the claims -/

/-- C10: a path returned by `solve` always has at least two points — the
solver never tests the start cell against the exit predicate — and on the 1×1
maze whose single cell is open, `solve((0,0))` returns `None` rather than
`Some([(0,0)])`. -/
theorem solve_path_two_points :
    (∀ (mz : Maze) (start : Point) (path : Path), Wf mz →
      Matrix.solve mz start = some (some path) → 2 ≤ path.length) ∧
    Matrix.solve ⟨[false], 1, 1⟩ (0, 0) = some none := by
  constructor
  · intro mz start path hwf hs
    rcases solve_shape hs with ⟨_, hr⟩ | hopen
    · exact absurd hr (by simp)
    · obtain ⟨costs, exitOpt, queue', hinvF, hcase⟩ := solve_anatomy hwf hopen
      rcases hcase with ⟨_, _, hsn⟩ | ⟨e, tail, hex, hsome, hchain, hlast, hlen⟩
      · rw [hs] at hsn
        exact absurd hsn (by simp)
      · rw [hs] at hsome
        simp only [Option.some.injEq] at hsome
        obtain ⟨henz, hens, _, _⟩ := hinvF.exitSome e hex
        have hmin := hinvF.costedMin e henz hens
        rw [hsome, List.length_reverse, List.length_cons]
        omega
  · decide

/-- Witness for C10 on the 5×5 test maze: its solved path has ≥ 2 points. -/
theorem solve_path_two_points_witness :
    2 ≤ ([(3, 1), (3, 2), (2, 2), (1, 2), (1, 1), (0, 1)] : Path).length :=
  solve_path_two_points.1 test5 (3, 1) _ ⟨by decide, by decide, by decide,
    by decide⟩ (by decide)

/-- A sequence of von-Neumann-adjacent open cells leading from `a` to `b`. -/
def leadsTo (mz : Maze) (l : List Point) (a b : Point) : Prop :=
  l.head? = some a ∧ l.getLast? = some b ∧ List.Chain' vonAdj l ∧
  ∀ p ∈ l, mz.idx? p = some false

instance vonAdjDec : DecidableRel vonAdj := fun p q =>
  inferInstanceAs (Decidable ((p.1 = q.1 ∧ (p.2 + 1 = q.2 ∨ q.2 + 1 = p.2)) ∨
    (p.2 = q.2 ∧ (p.1 + 1 = q.1 ∨ q.1 + 1 = p.1))))

/-- Any open von-Neumann path from a visited cell to a non-start exit is at
least as long as the recorded exit's cost allows: the BFS discovered the
nearest exit. -/
theorem bfs_lower_bound {mz : Maze} {start : Point} {queue : List Point}
    {costs : Matrix Nat} {e : Point} (hwf : Wf mz)
    (hinv : BfsInv mz start queue costs (some e)) :
    ∀ (l : List Point) (a : Point) (c : Nat),
      cval costs a ≠ 0 → cval costs a ≤ c →
      List.Chain vonAdj a l → (∀ p ∈ l, mz.idx? p = some false) →
      ∀ e', (a :: l).getLast? = some e' → mz.is_exit e' = true → e' ≠ start →
      cval costs e ≤ c + l.length := by
  intro l
  induction l with
  | nil =>
    intro a c ha hac _ _ e' hlast hex hne
    have he' : e' = a := by
      simp only [List.getLast?_singleton, Option.some.injEq] at hlast
      exact hlast.symm
    subst he'
    have heq := (hinv.exitSome e rfl).2.2.2 e' ha hne hex
    omega
  | cons b l ih =>
    intro a c ha hac hch hopen e' hlast hex hne
    cases hch with
    | cons hr hch' =>
      have hbopen : mz.idx? b = some false := hopen b (List.mem_cons_self b l)
      have hbmem : b ∈ neighbours a := by
        have hn := hwf.2.1
        have hm := hwf.2.2.1
        obtain ⟨x1, y1⟩ := cval_open_valid hinv ha
        obtain ⟨x2, y2⟩ := idx?_valid hbopen
        exact mem_neighbours_of_vonAdj (by omega) (by omega) (by omega)
          (by omega) hr
      have hlast' : (b :: l).getLast? = some e' := by
        rwa [List.getLast?_cons_cons] at hlast
      by_cases hbnz : cval costs b ≠ 0
      · have hlip := bfsInv_lipschitz hinv ha hbnz hbmem
        have := ih b (c + 1) hbnz (by omega) hch'
          (fun p hp => hopen p (List.mem_cons_of_mem b hp)) e' hlast' hex hne
        simp only [List.length_cons]
        omega
      · -- `b` is open but never visited: `a` is still in the queue, so the
        -- recorded exit cost is within one of `a`'s cost
        rw [Ne, not_not] at hbnz
        have haq : a ∈ queue := by
          by_contra haq
          exact (hinv.closure a ha haq b hbmem hbopen).1 hbnz
        have hband := hinv.band a haq e (hinv.exitSome e rfl).1
        simp only [List.length_cons]
        omega

/-- C5 (amended): `solve` returns `None` exactly when the start cell is a wall
or no exit cell other than the start itself is reachable from the start
through von-Neumann-adjacent open cells; a wall start returns `None` straight
from the precondition check; and on the concrete 8×6 blocked maze of the test
suite, `solve((1,2))` returns `None`. -/
theorem solve_none_iff (mz : Maze) (start : Point) (hwf : Wf mz)
    (hvalid : validPt mz start) :
    (Matrix.solve mz start = some none ↔
      (mz.idx? start = some true ∨
        ¬ ∃ e l, e ≠ start ∧ mz.is_exit e = true ∧ leadsTo mz l start e)) ∧
    (mz.idx? start = some true → Matrix.solve mz start = some none) ∧
    Matrix.solve test86 (1, 2) = some none := by
  have hwall : mz.idx? start = some true → Matrix.solve mz start = some none := by
    intro h
    rw [Matrix.solve, h]
  refine ⟨?_, hwall, by decide⟩
  have hdl' : mz.data.length = mz.n * mz.m := hwf.1
  obtain ⟨b, hb, _⟩ := idx?_eq_some_of_valid hdl' hvalid
  cases b with
  | true =>
    constructor
    · intro _
      exact Or.inl hb
    · intro _
      exact hwall hb
  | false =>
    obtain ⟨costs, exitOpt, queue', hinvF, hcase⟩ := solve_anatomy hwf hb
    rcases hcase with ⟨hex, hqe, hsn⟩ | ⟨e, tail, hex, hsome, hchain, hlast, hlen⟩
    · -- no exit was found: nothing other than start is reachable and exits
      subst hex
      subst hqe
      constructor
      · intro _
        right
        rintro ⟨e, l, hne, hexx, hhead, hlast, hch, hopen⟩
        obtain ⟨l', rfl⟩ := List.head?_eq_some_iff.mp hhead
        have hsc : cval costs start ≠ 0 := by
          rw [hinvF.startCost]
          omega
        have hchain' : List.Chain vonAdj start l' := hch
        have hel : e ∈ start :: l' := List.mem_of_getLast?_eq_some hlast
        have henz : cval costs e ≠ 0 := by
          rcases List.mem_cons.mp hel with rfl | hel'
          · exact hsc
          · exact costed_of_reach hwf hinvF l' start hsc hchain'
              (fun p hp => hopen p (List.mem_cons_of_mem start hp)) e hel'
        have := hinvF.exitNone rfl e henz hne
        rw [this] at hexx
        exact absurd hexx (by simp)
      · intro _
        exact hsn
    · -- an exit was found: solve returns a path witnessing reachability
      obtain ⟨henz, hens, henx, _⟩ := hinvF.exitSome e hex
      obtain ⟨hall, hadj⟩ := descend_chain_facts hwf hinvF tail e henz hchain
      constructor
      · intro hcontra
        rw [hsome] at hcontra
        exact absurd hcontra (by simp)
      · intro hr
        exfalso
        rcases hr with hw | hnreach
        · rw [hb] at hw
          exact absurd hw (by simp)
        · apply hnreach
          refine ⟨e, (e :: tail).reverse, hens, henx, ?_, ?_, ?_, ?_⟩
          · rw [List.head?_reverse]
            exact hlast
          · rw [List.getLast?_reverse]
            rfl
          · rw [List.chain'_reverse]
            have hc' : List.Chain' vonAdj (e :: tail) := hadj
            exact hc'.imp (fun a b hab => vonAdj_symm hab)
          · intro p hp
            rw [List.mem_reverse] at hp
            exact hinvF.costedOpen p (hall p hp)

/-- Witness for C5 on the 8×6 blocked test maze. -/
theorem solve_none_iff_witness :
    Matrix.solve test86 (1, 2) = some none :=
  (solve_none_iff test86 (1, 2) ⟨by decide, by decide, by decide, by decide⟩
    (by constructor <;> decide)).2.2

/-- Counterexample to C5 as stated: on the 1×2 maze `[open, wall]` the start
`(0,0)` is an open boundary cell, hence an exit reachable from itself (by the
one-point path), yet `solve` returns `None` — the claimed equivalence
"`None` iff wall or no exit reachable" fails because the solver never tests
the start cell against the exit predicate. -/
theorem solve_none_iff_counterexample :
    Matrix.solve ⟨[false, true], 1, 2⟩ (0, 0) = some none ∧
    (⟨[false, true], 1, 2⟩ : Maze).idx? (0, 0) = some false ∧
    (⟨[false, true], 1, 2⟩ : Maze).is_exit (0, 0) = true ∧
    leadsTo ⟨[false, true], 1, 2⟩ [(0, 0)] (0, 0) (0, 0) := by
  refine ⟨by decide, by decide, by decide, rfl, rfl, ?_, ?_⟩
  · exact List.chain'_singleton _
  · intro p hp
    rw [List.mem_singleton] at hp
    rw [hp]
    decide

/-- C2: every returned path is a sequence of open cells, consecutive cells
are von-Neumann adjacent, the first cell is the solve start, and the last
cell satisfies the boundary-exit predicate. -/
theorem solve_path_valid (mz : Maze) (start : Point) (path : Path)
    (hwf : Wf mz) (hs : Matrix.solve mz start = some (some path)) :
    (∀ p ∈ path, mz.idx? p = some false) ∧
    List.Chain' vonAdj path ∧
    path.head? = some start ∧
    (∃ e, path.getLast? = some e ∧ mz.is_exit e = true) := by
  rcases solve_shape hs with ⟨_, hr⟩ | hopen
  · exact absurd hr (by simp)
  obtain ⟨costs, exitOpt, queue', hinvF, hcase⟩ := solve_anatomy hwf hopen
  rcases hcase with ⟨_, _, hsn⟩ | ⟨e, tail, hex, hsome, hchain, hlast, hlen⟩
  · rw [hs] at hsn
    exact absurd hsn (by simp)
  rw [hs] at hsome
  simp only [Option.some.injEq] at hsome
  obtain ⟨henz, hens, henx, _⟩ := hinvF.exitSome e hex
  obtain ⟨hall, hadj⟩ := descend_chain_facts hwf hinvF tail e henz hchain
  refine ⟨?_, ?_, ?_, ?_⟩
  · intro p hp
    rw [hsome, List.mem_reverse] at hp
    exact hinvF.costedOpen p (hall p hp)
  · rw [hsome, List.chain'_reverse]
    have hc' : List.Chain' vonAdj (e :: tail) := hadj
    exact hc'.imp (fun a b hab => vonAdj_symm hab)
  · rw [hsome, List.head?_reverse]
    exact hlast
  · refine ⟨e, ?_, henx⟩
    rw [hsome, List.getLast?_reverse]
    rfl

/-- C8: for every point, the neighbour enumerator yields exactly 4 points in
the fixed order `(r-1,c)`, `(r,c+1)`, `(r+1,c)`, `(r,c-1)`; decrementing a
zero coordinate wraps modulo `2^64` to `2^64 - 1` (never a small in-range
value), so the bounds check `is_valid` rejects it for any grid dimension below
`2^64 - 1`; a nonzero coordinate decrements normally. -/
theorem neighbours_spec (p : Point) (mz : Maze) (h1 : p.1 < W) (h2 : p.2 < W)
    (hn : mz.n < W - 1) (hm : mz.m < W - 1) :
    (neighbours p).length = 4 ∧
    neighbours p = [(safe_add p.1 (-1), p.2), (p.1, safe_add p.2 1),
      (safe_add p.1 1, p.2), (p.1, safe_add p.2 (-1))] ∧
    (p.1 = 0 → safe_add p.1 (-1) = W - 1 ∧
      mz.is_valid (safe_add p.1 (-1), p.2) = false) ∧
    (p.2 = 0 → safe_add p.2 (-1) = W - 1 ∧
      mz.is_valid (p.1, safe_add p.2 (-1)) = false) ∧
    (p.1 ≠ 0 → safe_add p.1 (-1) = p.1 - 1) ∧
    (p.2 ≠ 0 → safe_add p.2 (-1) = p.2 - 1) := by
  refine ⟨rfl, ?_, ?_, ?_, ?_, ?_⟩
  · simp [neighbours, safe_add_zero p.1 h1, safe_add_zero p.2 h2]
  · intro hz
    rw [hz, safe_add_neg_one_zero]
    refine ⟨rfl, ?_⟩
    simp only [Matrix.is_valid]
    have : ¬(W - 1 < mz.n) := by omega
    simp [this]
  · intro hz
    rw [hz, safe_add_neg_one_zero]
    refine ⟨rfl, ?_⟩
    simp only [Matrix.is_valid]
    have : ¬(W - 1 < mz.m) := by omega
    simp [this]
  · intro hz
    exact safe_add_neg_one_pos p.1 (Nat.pos_of_ne_zero hz) h1
  · intro hz
    exact safe_add_neg_one_pos p.2 (Nat.pos_of_ne_zero hz) h2

/-- Witness for C8 at the concrete point `(0, 0)` and the 5×5 test maze. -/
theorem neighbours_spec_witness :
    neighbours ((0 : Nat), (0 : Nat)) =
      [(safe_add 0 (-1), 0), (0, safe_add 0 1), (safe_add 0 1, 0),
        (0, safe_add 0 (-1))] :=
  (neighbours_spec (0, 0) test5 (by decide) (by decide) (by decide)
    (by decide)).2.1

/-- C9: `Matrix::new(n, m)` yields the default value at every in-bounds point;
every read or write at a point with `i ≥ n` or `j ≥ m` panics (`none`) rather
than returning or writing a value; in-bounds reads use the linear index
`i*m + j`. -/
theorem matrix_new_bounds (α : Type) [Inhabited α] (n m i j : Nat) (v : α) :
    (i < n → j < m → (Matrix.new α n m).idx? (i, j) = some default) ∧
    (n ≤ i ∨ m ≤ j → (Matrix.new α n m).idx? (i, j) = none ∧
      (Matrix.new α n m).set? (i, j) v = none) ∧
    (∀ A : Matrix α, i < A.n → j < A.m → A.idx? (i, j) = A.data[i * A.m + j]?) := by
  refine ⟨?_, ?_, ?_⟩
  · intro hi hj
    rw [Matrix.new, Matrix.idx?]
    simp only []
    rw [if_pos ⟨hi, hj⟩]
    rw [List.getElem?_replicate]
    have hlt : i * m + j < n * m := by
      calc i * m + j < i * m + m := by omega
      _ = (i + 1) * m := by ring
      _ ≤ n * m := Nat.mul_le_mul_right m (by omega)
    simp [hlt]
  · intro hor
    have hneg : ¬((i, j).1 < (Matrix.new α n m).n ∧ (i, j).2 < (Matrix.new α n m).m) := by
      rw [Matrix.new]
      simp only []
      omega
    constructor
    · rw [Matrix.idx?, if_neg hneg]
    · rw [Matrix.set?, if_neg hneg]
  · intro A hi hj
    rw [Matrix.idx?, if_pos ⟨hi, hj⟩]

/-- Witness for C9 at `n = 2`, `m = 3`, reading `(1, 2)` of a fresh matrix. -/
theorem matrix_new_bounds_witness :
    (Matrix.new Nat 2 3).idx? (1, 2) = some 0 ∧
      (Matrix.new Nat 2 3).idx? (2, 0) = none :=
  ⟨(matrix_new_bounds Nat 2 3 1 2 0).1 (by decide) (by decide),
   ((matrix_new_bounds Nat 2 3 2 0 7).2.1 (Or.inl (by decide))).1⟩

/-- Witness for C2 on the 5×5 test maze: the returned path starts at the
solve start. -/
theorem solve_path_valid_witness :
    ([(3, 1), (3, 2), (2, 2), (1, 2), (1, 1), (0, 1)] : Path).head? =
      some (3, 1) :=
  (solve_path_valid test5 (3, 1) _ ⟨by decide, by decide, by decide, by decide⟩
    (by decide)).2.2.1

/-- C3 (amended): the length of a returned path equals the BFS cost recorded
for the discovered exit cell, and no strictly shorter sequence of
von-Neumann-adjacent open cells leads from the start to any exit other than
the start itself. -/
theorem solve_minimal (mz : Maze) (start : Point) (path : Path)
    (hwf : Wf mz) (hs : Matrix.solve mz start = some (some path)) :
    (∃ costs exitOpt queue' e, BfsInv mz start queue' costs exitOpt ∧
      exitOpt = some e ∧ path.getLast? = some e ∧
      path.length = cval costs e) ∧
    (∀ (l : List Point) (e' : Point), e' ≠ start → mz.is_exit e' = true →
      leadsTo mz l start e' → path.length ≤ l.length) := by
  rcases solve_shape hs with ⟨_, hr⟩ | hopen
  · exact absurd hr (by simp)
  obtain ⟨costs, exitOpt, queue', hinvF, hcase⟩ := solve_anatomy hwf hopen
  rcases hcase with ⟨_, _, hsn⟩ | ⟨e, tail, hex, hsome, hchain, hlast, hlen⟩
  · rw [hs] at hsn
    exact absurd hsn (by simp)
  rw [hs] at hsome
  simp only [Option.some.injEq] at hsome
  subst hex
  have hplen : path.length = cval costs e := by
    rw [hsome, List.length_reverse, List.length_cons]
    omega
  constructor
  · refine ⟨costs, some e, queue', e, hinvF, rfl, ?_, hplen⟩
    rw [hsome, List.getLast?_reverse]
    rfl
  · rintro l e' hne hex' ⟨hhead, hlast', hch, hopen'⟩
    obtain ⟨l', rfl⟩ := List.head?_eq_some_iff.mp hhead
    have hsc : cval costs start ≠ 0 := by
      rw [hinvF.startCost]
      omega
    have hchain' : List.Chain vonAdj start l' := hch
    have := bfs_lower_bound hwf hinvF l' start 1 hsc
      (by rw [hinvF.startCost]) hchain'
      (fun p hp => hopen' p (List.mem_cons_of_mem start hp)) e' hlast' hex' hne
    rw [hplen]
    simp only [List.length_cons]
    omega

/-- Witness for C3 on the 5×5 test maze, comparing the returned path against
itself as a candidate sequence. -/
theorem solve_minimal_witness :
    ([(3, 1), (3, 2), (2, 2), (1, 2), (1, 1), (0, 1)] : Path).length ≤
      ([(3, 1), (3, 2), (2, 2), (1, 2), (1, 1), (0, 1)] : List Point).length :=
  (solve_minimal test5 (3, 1) _ ⟨by decide, by decide, by decide, by decide⟩
      (by decide)).2
    [(3, 1), (3, 2), (2, 2), (1, 2), (1, 1), (0, 1)] (0, 1) (by decide)
    (by decide)
    ⟨rfl, rfl,
      by
        refine List.chain'_cons.mpr ⟨by decide, ?_⟩
        refine List.chain'_cons.mpr ⟨by decide, ?_⟩
        refine List.chain'_cons.mpr ⟨by decide, ?_⟩
        refine List.chain'_cons.mpr ⟨by decide, ?_⟩
        refine List.chain'_cons.mpr ⟨by decide, ?_⟩
        exact List.chain'_singleton _,
      by decide⟩

/-- Counterexample to C3 as stated: on the 1×2 fully open maze, the returned
path from `(0,0)` has length 2, but the one-point sequence `[(0,0)]` is a
strictly shorter sequence of open cells leading from the start to an exit
(the start itself is an open boundary cell). -/
theorem solve_minimal_counterexample :
    Matrix.solve ⟨[false, false], 1, 2⟩ (0, 0) =
      some (some [(0, 0), (0, 1)]) ∧
    (⟨[false, false], 1, 2⟩ : Maze).is_exit (0, 0) = true ∧
    leadsTo ⟨[false, false], 1, 2⟩ [(0, 0)] (0, 0) (0, 0) ∧
    ([(0, 0)] : List Point).length < ([(0, 0), (0, 1)] : Path).length := by
  refine ⟨by decide, by decide, ⟨rfl, rfl, List.chain'_singleton _, ?_⟩,
    by decide⟩
  intro p hp
  rw [List.mem_singleton] at hp
  rw [hp]
  decide

theorem genLoop_done {R : Nat → Nat} {s : GenState} {mz : Maze}
    (h : stepGen R s = GenRes.done mz) : genLoop R s = some mz := by
  unfold genLoop
  split
  next mz2 heq =>
    rw [heq] at h
    cases h
    rfl
  next heq =>
    rw [heq] at h
    cases h
  next s2 heq =>
    rw [heq] at h
    cases h

theorem genLoop_next {R : Nat → Nat} {s s' : GenState}
    (h : stepGen R s = GenRes.next s') : genLoop R s = genLoop R s' := by
  have hx : ∀ r, genLoop R s' = r → genLoop R s = r := by
    intro r hr
    unfold genLoop
    split
    next mz2 heq =>
      rw [heq] at h
      cases h
    next heq =>
      rw [heq] at h
      cases h
    next s2 heq =>
      rw [heq] at h
      cases h
      exact hr
  exact hx _ rfl

/-- C7: for all positive dimensions and every sequence of random choices the
generator setup succeeds and the frontier loop halts after finitely many
iterations; each continuing iteration removes exactly one (randomly chosen)
frontier entry, every cell it pushes is still walled when pushed, open cells
stay open, and an already carved (open) cell is never pushed. -/
theorem generate_terminates (n m : Nat) (R : Nat → Nat) (hn : 0 < n)
    (hm : 0 < m) :
    (∃ start s0, genInit n m R = some (start, s0) ∧
      ∃ j, ∀ s', genIter R j s0 ≠ GenRes.next s') ∧
    (∀ s s', stepGen R s = GenRes.next s' →
      ∃ i current pushed, i < s.cells.length ∧ s.cells[i]? = some current ∧
        s'.cells.Perm (s.cells.eraseIdx i ++ pushed) ∧
        (∀ q ∈ pushed, s'.mz.idx? q = some true) ∧
        (∀ p, s.mz.idx? p = some false → s'.mz.idx? p = some false) ∧
        (∀ p, s.mz.idx? p = some false → p ∉ pushed)) := by
  constructor
  · have hset0 : ∀ (st : Point),
        validPt (⟨List.replicate (n * m) true, n, m⟩ : Maze) st →
        (⟨List.replicate (n * m) true, n, m⟩ : Maze).set? st false =
          some ⟨(List.replicate (n * m) true).set (st.1 * m + st.2) false,
            n, m⟩ :=
      fun st hv => set?_eq_some_of_valid (by simp) hv false
    have hsome : ∃ start s0, genInit n m R = some (start, s0) := by
      cases hg : genInit n m R with
      | some x => exact ⟨x.1, x.2, rfl⟩
      | none =>
        exfalso
        simp only [genInit] at hg
        rw [if_neg (by omega)] at hg
        split at hg
        · split at hg
          next hnone =>
            rw [hset0 (R 0 % n, 0) ⟨Nat.mod_lt _ hn, hm⟩] at hnone
            cases hnone
          next mz1 hset =>
            cases hg
        · split at hg
          next hnone =>
            rw [hset0 (0, R 1 % m) ⟨hn, Nat.mod_lt _ hm⟩] at hnone
            cases hnone
          next mz1 hset =>
            cases hg
    obtain ⟨start, s0, hg⟩ := hsome
    exact ⟨start, s0, hg, genIter_halts R s0⟩
  · intro s s' h
    obtain ⟨i, c, pu, h1, h2, h3, h4, h5, h6, _⟩ := stepGen_facts h
    exact ⟨i, c, pu, h1, h2, h3, h4, h5, h6⟩

/-- Witness for C7 at the concrete instance `n = m = 1` with the constant
random oracle. -/
theorem generate_terminates_witness :
    ∃ start s0, genInit 1 1 (fun _ => 0) = some (start, s0) ∧
      ∃ j, ∀ s', genIter (fun _ => 0) j s0 ≠ GenRes.next s' :=
  (generate_terminates 1 1 (fun _ => 0) (by decide) (by decide)).1

/-- C6: throughout every run of `generate` — right after the initial boundary
carve and at every later iteration of the frontier loop, as well as in the
returned maze — the open cells form a single connected, acyclic (tree-shaped)
region under von Neumann adjacency containing the carved boundary cell
`start`; consequently the path between any two open cells is unique. -/
theorem generate_tree (n m : Nat) (R : Nat → Nat) (hnW : n < W)
    (hmW : m < W) (start : Point) (s0 : GenState)
    (hinit : genInit n m R = some (start, s0)) :
    (∀ s, GenReach R s0 s →
      s.mz.idx? start = some false ∧
      (∀ p, s.mz.idx? p = some false → (openGraph s.mz).Reachable p start) ∧
      (openGraph s.mz).IsAcyclic ∧
      ∀ (p q : Point) (P Q : (openGraph s.mz).Path p q), P = Q) ∧
    ∀ mz, generate n m R = some mz →
      mz.idx? start = some false ∧
      (∀ p, mz.idx? p = some false → (openGraph mz).Reachable p start) ∧
      (openGraph mz).IsAcyclic ∧
      ∀ (p q : Point) (P Q : (openGraph mz).Path p q), P = Q := by
  obtain ⟨hinv0, _, _, _, _⟩ := genInit_some hnW hmW hinit
  have hmain : ∀ s, GenReach R s0 s →
      s.mz.idx? start = some false ∧
      (∀ p, s.mz.idx? p = some false → (openGraph s.mz).Reachable p start) ∧
      (openGraph s.mz).IsAcyclic ∧
      ∀ (p q : Point) (P Q : (openGraph s.mz).Path p q), P = Q := by
    intro s hs
    have hinv := genInv_reach hnW hmW hinv0 hs
    exact ⟨hinv.startOpen, hinv.conn, hinv.acyclic,
      fun p q P Q => hinv.acyclic.path_unique P Q⟩
  refine ⟨hmain, ?_⟩
  intro mz hg
  unfold generate at hg
  split at hg
  · cases hg
  next start2 s02 hinit2 =>
    rw [hinit, Option.some.injEq, Prod.mk.injEq] at hinit2
    obtain ⟨h1, h2⟩ := hinit2
    subst h1
    subst h2
    obtain ⟨t, hreach, hdone⟩ := genLoop_some hg
    obtain ⟨_, hmzeq⟩ := stepGen_done hdone
    subst hmzeq
    exact hmain t hreach

/-- Witness for C6 at the concrete instance `n = m = 1` with the constant
random oracle: the generated 1×1 maze has an acyclic open-cell graph and an
open carved cell. -/
theorem generate_tree_witness :
    (openGraph (⟨[false], 1, 1⟩ : Maze)).IsAcyclic ∧
      Matrix.idx? (⟨[false], 1, 1⟩ : Maze) (0, 0) = some false := by
  have h := generate_tree 1 1 (fun _ => 0) (by decide) (by decide) (0, 0)
    ⟨⟨[false], 1, 1⟩, [], 3⟩ (by decide)
  obtain ⟨hs, _⟩ := h
  obtain ⟨h1, _, h3, _⟩ := hs ⟨⟨[false], 1, 1⟩, [], 3⟩ (GenReach.refl _)
  exact ⟨h3, h1⟩

/-- C1 (corrected): on every grid with at least two cells, for every sequence
of random choices, `solve` returns `Some(path)` from every open cell of the
generated maze.  (On the 1×1 grid the claim fails, see the counterexample:
the solver never tests its start cell against the exit predicate.) -/
theorem generate_connectivity (n m : Nat) (R : Nat → Nat)
    (h2 : 2 ≤ n * m) (hWnm : n * m < W - 1) (mz : Maze)
    (hg : generate n m R = some mz) (p : Point)
    (hp : mz.idx? p = some false) :
    ∃ path, Matrix.solve mz p = some (some path) := by
  have hW : 0 < W := W_pos
  have hn0 : 0 < n := by
    rcases Nat.eq_zero_or_pos n with h | h
    · rw [h, Nat.zero_mul] at h2
      omega
    · exact h
  have hm0 : 0 < m := by
    rcases Nat.eq_zero_or_pos m with h | h
    · rw [h, Nat.mul_zero] at h2
      omega
    · exact h
  have hnle : n ≤ n * m := by
    have := Nat.mul_le_mul_left n hm0
    omega
  have hmle : m ≤ n * m := by
    have := Nat.mul_le_mul_right m hn0
    omega
  have hnW : n < W := by omega
  have hmW : m < W := by omega
  unfold generate at hg
  split at hg
  · cases hg
  next start s0 hinit =>
    obtain ⟨hinv0, hbd, honly, hwalled0, hne0⟩ := genInit_some hnW hmW hinit
    obtain ⟨t, hreach, hdone⟩ := genLoop_some hg
    obtain ⟨hcellsnil, hmzeq⟩ := stepGen_done hdone
    subst hmzeq
    have hinvT : GenInv n m start t := genInv_reach hnW hmW hinv0 hreach
    have hcne : s0.cells ≠ [] := hne0 h2
    have htne : t ≠ s0 := by
      intro he
      rw [he] at hcellsnil
      exact hcne hcellsnil
    obtain ⟨s1, hstep1, hreach1⟩ := genReach_first hreach htne
    obtain ⟨current, hcur, hcase⟩ := stepGen_next_cases hstep1
    have hcmem : current ∈ s0.cells := List.getElem?_mem hcur
    have hcwal : s0.mz.idx? current = some true := hwalled0 current hcmem
    have hcval : validPt s0.mz current := hinv0.cellsValid current hcmem
    have hcs : current ≠ start := by
      intro he
      rw [he, hinv0.startOpen] at hcwal
      cases hcwal
    rcases hcase with ⟨hlt, mz1, hset1, hs1⟩ | ⟨hge, _⟩
    · have hs1mz : s1.mz = mz1 := by rw [hs1]
      have hopen1c : s1.mz.idx? current = some false := by
        rw [hs1mz, idx?_after_set? hset1 current, if_pos rfl]
      have hopen1s : s1.mz.idx? start = some false := by
        rw [hs1mz, idx?_after_set? hset1 start]
        split
        · rfl
        · exact hinv0.startOpen
      have hopentc : t.mz.idx? current = some false :=
        genReach_open_mono hreach1 current hopen1c
      have hopents : t.mz.idx? start = some false :=
        genReach_open_mono hreach1 start hopen1s
      have hwf : Wf t.mz := by
        refine ⟨?_, ?_, ?_, ?_⟩
        · rw [hinvT.diml, hinvT.dimn, hinvT.dimm]
        · rw [hinvT.dimn]
          exact hnW
        · rw [hinvT.dimm]
          exact hmW
        · rw [hinvT.dimn, hinvT.dimm]
          exact hWnm
      have hfront : ∀ q, validPt t.mz q → t.mz.idx? q = some true →
          (∃ r ∈ neighbours q, t.mz.idx? r = some false) →
          2 ≤ openNbrCount t.mz q := by
        intro q hvq hwq hex
        rcases hinvT.frontier q hvq hwq hex with hmem | hge2
        · rw [hcellsnil] at hmem
          cases hmem
        · exact hge2
      obtain ⟨e, heopen, heexit, henep⟩ := sealed_exit hwf.2.1 hwf.2.2.1
        hwf.1 hfront hopents hopentc (Ne.symm hcs) p
      obtain ⟨costs, exitOpt, queue', hinvF, hcase2⟩ := solve_anatomy hwf hp
      rcases hcase2 with ⟨hexn, hqn, hsn⟩ | ⟨e2, tail, _, hsome, _⟩
      · exfalso
        subst hexn
        subst hqn
        have hre : (openGraph t.mz).Reachable p e :=
          (hinvT.conn p hp).trans (hinvT.conn e heopen).symm
        obtain ⟨w⟩ := hre
        obtain ⟨hchain, hopenall⟩ := walk_chain w heopen
        have hsupp := SimpleGraph.Walk.support_eq_cons w
        have hstart : cval costs p ≠ 0 := by
          rw [hinvF.startCost]
          omega
        have hpe : cval costs e ≠ 0 := by
          have hemem : e ∈ w.support := w.end_mem_support
          rw [hsupp, List.mem_cons] at hemem
          rcases hemem with he | he
          · exact absurd he henep
          · exact costed_of_reach hwf hinvF w.support.tail p hstart hchain
              (fun q hq => hopenall q
                (by rw [hsupp]; exact List.mem_cons_of_mem p hq)) e he
        have hfalse := hinvF.exitNone rfl e hpe henep
        rw [heexit] at hfalse
        cases hfalse
      · exact ⟨(e2 :: tail).reverse, hsome⟩
    · exfalso
      have h1 : openNbrCount s0.mz current ≤ 1 := by
        apply openNbrCount_le_one
          (show current.1 < W by
            obtain ⟨a, b⟩ := hcval
            have hd := hinv0.dimn
            omega)
          (show current.2 < W by
            obtain ⟨a, b⟩ := hcval
            have hd := hinv0.dimm
            omega)
        intro r hrm hro
        exact honly r hro
      omega

/-- Witness for C1 on the 1×2 grid with the constant random oracle: the
generated maze is fully open and `solve((0,0))` succeeds. -/
theorem generate_connectivity_witness :
    ∃ path, Matrix.solve (⟨[false, false], 1, 2⟩ : Maze) (0, 0) =
      some (some path) := by
  have hinit : genInit 1 2 (fun _ => 0) =
      some ((0, 0), ⟨⟨[false, true], 1, 2⟩, [(0, 1)], 3⟩) := by decide
  have hstep1 : stepGen (fun _ => 0) ⟨⟨[false, true], 1, 2⟩, [(0, 1)], 3⟩ =
      GenRes.next ⟨⟨[false, false], 1, 2⟩, [], 4⟩ := by decide
  have hstep2 : stepGen (fun _ => 0) ⟨⟨[false, false], 1, 2⟩, [], 4⟩ =
      GenRes.done ⟨[false, false], 1, 2⟩ := by decide
  have hgen : generate 1 2 (fun _ => 0) = some ⟨[false, false], 1, 2⟩ := by
    unfold generate
    rw [hinit]
    show genLoop (fun _ => 0) ⟨⟨[false, true], 1, 2⟩, [(0, 1)], 3⟩ =
      some ⟨[false, false], 1, 2⟩
    rw [genLoop_next hstep1]
    exact genLoop_done hstep2
  exact generate_connectivity 1 2 (fun _ => 0) (by decide) (by decide) _
    hgen (0, 0) (by decide)

/-- Counterexample to C1 as stated: on the 1×1 grid (n, m ≥ 1) generation
succeeds and carves the single cell, yet `solve` from that open cell returns
`None` — the solver only ever tests neighbours, never its start cell, against
the exit predicate. -/
theorem generate_connectivity_counterexample :
    generate 1 1 (fun _ => 0) = some ⟨[false], 1, 1⟩ ∧
    (⟨[false], 1, 1⟩ : Maze).idx? (0, 0) = some false ∧
    Matrix.solve ⟨[false], 1, 1⟩ (0, 0) = some none := by
  refine ⟨?_, by decide, by decide⟩
  have hinit : genInit 1 1 (fun _ => 0) =
      some ((0, 0), ⟨⟨[false], 1, 1⟩, [], 3⟩) := by decide
  have hstep : stepGen (fun _ => 0) ⟨⟨[false], 1, 1⟩, [], 3⟩ =
      GenRes.done ⟨[false], 1, 1⟩ := by decide
  unfold generate
  rw [hinit]
  show genLoop (fun _ => 0) ⟨⟨[false], 1, 1⟩, [], 3⟩ = some ⟨[false], 1, 1⟩
  exact genLoop_done hstep

/-- C4: on the concrete 5×5 maze of `test_simple_maze`, `solve((3,1))` returns
exactly the path `(3,1), (3,2), (2,2), (1,2), (1,1), (0,1)`. -/
theorem solve_test5 :
    Matrix.solve test5 (3, 1) =
      some (some [(3, 1), (3, 2), (2, 2), (1, 2), (1, 1), (0, 1)]) := by
  decide

end MazeModel
